import Mathlib

/-!
# Verification of the MoChA attention module (neural_sp/models/modules/mocha.py)

Shallow embedding over exact rationals (`ℚ`) of the numeric core of the
monotonic chunkwise attention (MoChA) module: the cumulative-sum/product
primitives, the three selection modes (recursive, parallel, hard), the
hard-mode latency controller, the chunkwise aggregation, and the
monotonic-energy scorer's cache behaviour.

Tensors are modelled per batch element: a key-axis vector is a `List ℚ`,
a `[qlen, klen]` slice is a `List (List ℚ)`, and the head axis is an outer
list where heads interact.  Probabilities produced by `torch.sigmoid`
(a transcendental function) enter the model as rational inputs constrained
to the sigmoid's range where a claim needs it; the hard mode's threshold
`sigmoid(e) >= 0.5` is embedded exactly as `0 <= e`.
-/

set_option maxHeartbeats 1000000

/-- `float32` minimum (`np.finfo(np.float32).min`), the large negative
sentinel written into masked energy positions: `-(2^128 - 2^104)` exactly. -/
def NEG_INF : ℚ := -(340282346638528859811704183484516925440 : ℚ)

/-- `torch.clamp(x, min := lo, max := hi)`. -/
def clampQ (lo hi x : ℚ) : ℚ := max lo (min hi x)

/-- `torch.cumsum` along the key axis, with an explicit running accumulator. -/
def cumsumGo (c : ℚ) : List ℚ → List ℚ
  | [] => []
  | x :: xs => (c + x) :: cumsumGo (c + x) xs

/-- `torch.cumsum(x, dim=-1)` (inclusive cumulative sum). -/
def cumsum (l : List ℚ) : List ℚ := cumsumGo 0 l

/-- `torch.cumprod` along the key axis, with an explicit running accumulator. -/
def cumprodGo (c : ℚ) : List ℚ → List ℚ
  | [] => []
  | x :: xs => (c * x) :: cumprodGo (c * x) xs

/-- `torch.cumprod(x, dim=-1)` (inclusive cumulative product). -/
def cumprod (l : List ℚ) : List ℚ := cumprodGo 1 l

/-- `exclusive_cumsum` (mocha.py:535): cumulative sum of
`cat([zeros, x[:-1]])`, i.e. `[a, b, c] => [0, a, a + b]`. -/
def exclusive_cumsum (x : List ℚ) : List ℚ := cumsum (0 :: x.dropLast)

/-- `exclusive_cumprod` (mocha.py:548): cumulative product of
`cat([ones, x[:-1]])`, i.e. `[a, b, c] => [1, a, a * b]`. -/
def exclusive_cumprod (x : List ℚ) : List ℚ := cumprod (1 :: x.dropLast)

/-- `safe_cumprod` (mocha.py:524):
`exp(exclusive_cumsum(log(clamp(x, min=eps, max=1.0))))`.  Over exact
arithmetic `exp` of a sum of logarithms of positive numbers is their
product, so this is the exclusive cumulative product of the clamped input
(the clamp keeps every factor in `[eps, 1]`, hence strictly positive). -/
def safe_cumprod (x : List ℚ) (eps : ℚ) : List ℚ :=
  exclusive_cumprod (x.map (clampQ eps 1))

/-- `moving_sum(x, back, forward)` (mocha.py:561): pad `x` with `back` zeros
in front and `forward` zeros behind, then convolve with a ones filter of
width `back + forward + 1`; output position `j` is the sum of the padded
list over `[j, j + back + forward]`. -/
def moving_sum (x : List ℚ) (back forward : ℕ) : List ℚ :=
  let padded := List.replicate back (0 : ℚ) ++ x ++ List.replicate forward (0 : ℚ)
  (List.range x.length).map (fun j => ((padded.drop j).take (back + forward + 1)).sum)

/-- Modelled from the spec: the naive sliding-window sum, where output
position `j` sums the input over positions `j - back` through
`j + forward`, clipped to the sequence. -/
def naive_moving_sum (x : List ℚ) (back forward : ℕ) : List ℚ :=
  (List.range x.length).map (fun j => ((x.take (j + forward + 1)).drop (j - back)).sum)

/-! ### Sum/take/drop helper lemmas -/

lemma sum_take_replicate_zero (f : ℕ) : ∀ m : ℕ, (((List.replicate f (0 : ℚ)).take m)).sum = 0 := by
  induction f with
  | zero => intro m; simp
  | succ n ih =>
      intro m
      cases m with
      | zero => simp
      | succ m => simp [List.replicate_succ, ih m]

lemma sum_take_zeros_append (k : ℕ) (l : List ℚ) :
    ∀ m : ℕ, ((List.replicate k (0 : ℚ) ++ l).take m).sum = (l.take (m - k)).sum := by
  induction k with
  | zero => intro m; simp
  | succ k ih =>
      intro m
      cases m with
      | zero => simp
      | succ m => simp [List.replicate_succ, ih m]

lemma sum_take_append_zeros (l : List ℚ) (f : ℕ) :
    ∀ m : ℕ, ((l ++ List.replicate f (0 : ℚ)).take m).sum = (l.take m).sum := by
  induction l with
  | nil => intro m; simp [sum_take_replicate_zero f m]
  | cons a l ih =>
      intro m
      cases m with
      | zero => simp
      | succ m => simp [ih m]

/-- C6: the convolution-based `moving_sum` over window `[back, forward]`
equals the naive sliding-window sum at every position, for every input. -/
theorem moving_sum_eq_naive (x : List ℚ) (back forward : ℕ) :
    moving_sum x back forward = naive_moving_sum x back forward := by
  unfold moving_sum naive_moving_sum
  refine List.map_congr_left ?_
  intro j hj
  rw [List.drop_append_eq_append_drop, List.drop_append_eq_append_drop,
      List.drop_replicate, List.drop_replicate, List.length_replicate]
  rw [List.append_assoc, sum_take_zeros_append, sum_take_append_zeros]
  rw [List.drop_take]
  have harith : back + forward + 1 - (back - j) = j + forward + 1 - (j - back) := by omega
  rw [harith]

/-! ### Exclusive-scan helper and bridges -/

/-- Exclusive scan form of the cumulative product: at each position emit the
running product so far, then fold the position's factor in.  Bridges the
source's `cat`/`dropLast` formulation to an induction-friendly recursion. -/
def exclGo (c : ℚ) : List ℚ → List ℚ
  | [] => []
  | x :: xs => c :: exclGo (c * x) xs

lemma cumprodGo_dropLast : ∀ (ys : List ℚ) (c y : ℚ),
    cumprodGo c ((y :: ys).dropLast) = exclGo (c * y) ys := by
  intro ys
  induction ys with
  | nil => intro c y; rfl
  | cons z zs ih =>
      intro c y
      simp only [List.dropLast_cons₂, cumprodGo, exclGo]
      exact congrArg _ (ih (c * y) z)

lemma exclGo_eq_cons_dropLast : ∀ (ys : List ℚ) (c : ℚ),
    exclGo c ys = (c :: cumprodGo c ys).dropLast := by
  intro ys
  induction ys with
  | nil => intro c; rfl
  | cons z zs ih =>
      intro c
      simp only [exclGo, cumprodGo, List.dropLast_cons₂]
      exact congrArg _ (ih (c * z))

lemma exclusive_cumprod_cons (y : ℚ) (ys : List ℚ) :
    exclusive_cumprod (y :: ys) = 1 :: exclGo y ys := by
  simp only [exclusive_cumprod, cumprod, cumprodGo, cumprodGo_dropLast, one_mul]

lemma safe_cumprod_eq_shifted (x : List ℚ) (eps : ℚ) :
    safe_cumprod x eps = 1 :: (cumprod (x.map (clampQ eps 1))).dropLast := by
  cases x with
  | nil => simp [safe_cumprod, exclusive_cumprod, cumprod, cumprodGo]
  | cons y ys =>
      simp only [safe_cumprod, List.map_cons, exclusive_cumprod_cons, cumprod, cumprodGo,
        one_mul, List.dropLast_cons₂]
      rw [exclGo_eq_cons_dropLast]

lemma clampQ_bounds (eps a : ℚ) (h0 : 0 < eps) (h1 : eps ≤ 1) :
    0 ≤ clampQ eps 1 a ∧ clampQ eps 1 a ≤ 1 := by
  unfold clampQ
  constructor
  · exact le_trans h0.le (le_max_left _ _)
  · exact max_le h1 (min_le_left _ _)

lemma exclGo_chain_and_le : ∀ (l : List ℚ) (c : ℚ), 0 ≤ c →
    (∀ a ∈ l, 0 ≤ a ∧ a ≤ 1) →
    List.Chain' (fun a b => b ≤ a) (exclGo c l) ∧ ∀ y ∈ exclGo c l, y ≤ c := by
  intro l
  induction l with
  | nil => intro c _ _; exact ⟨List.chain'_nil, by simp [exclGo]⟩
  | cons x xs ih =>
      intro c hc hl
      have hx := hl x (by simp)
      have hcx0 : 0 ≤ c * x := mul_nonneg hc hx.1
      have hcx : c * x ≤ c := mul_le_of_le_one_right hc hx.2
      have ihx := ih (c * x) hcx0 (fun a ha => hl a (by simp [ha]))
      refine ⟨?_, ?_⟩
      · rw [exclGo, List.chain'_cons']
        refine ⟨?_, ihx.1⟩
        intro b hb
        have hbmem : b ∈ exclGo (c * x) xs := by
          cases hmem : (exclGo (c * x) xs).head? with
          | none => rw [hmem] at hb; cases hb
          | some v =>
              rw [hmem] at hb
              simp only [Option.mem_some_iff] at hb
              subst hb
              exact List.mem_of_mem_head? hmem
        exact le_trans (ihx.2 b hbmem) hcx
      · intro y hy
        rw [exclGo] at hy
        rcases List.mem_cons.mp hy with h | h
        · exact h.le
        · exact le_trans (ihx.2 y h) hcx

/-- Modelled from the spec: the formula `exp(cumsum(log(clamp(x))))` with the
standard (inclusive) `cumsum`, which over exact arithmetic is the inclusive
cumulative product of the clamped input. -/
def spec_log_cumprod (x : List ℚ) (eps : ℚ) : List ℚ :=
  cumprod (x.map (clampQ eps 1))

/-- C7 counterexample: `safe_cumprod` does not match
`exp(cumsum(log(clamp(x))))` with the inclusive `cumsum` — on the input
`[1/2]` with `eps = 1e-6` the code returns `[1]` (exclusive product) while
the claimed formula yields `[1/2]`; the gap is `1/2`, far beyond floating
tolerance. -/
theorem safe_cumprod_formula_counterexample :
    safe_cumprod [(1 : ℚ)/2] (1/1000000) ≠ spec_log_cumprod [(1 : ℚ)/2] (1/1000000) ∧
    safe_cumprod [(1 : ℚ)/2] (1/1000000) = [1] ∧
    spec_log_cumprod [(1 : ℚ)/2] (1/1000000) = [1/2] := by
  have h2 : safe_cumprod [(1 : ℚ)/2] (1/1000000) = [1] := by
    simp [safe_cumprod, exclusive_cumprod, cumprod, cumprodGo]
  have h3 : spec_log_cumprod [(1 : ℚ)/2] (1/1000000) = [1/2] := by
    norm_num [spec_log_cumprod, cumprod, cumprodGo, clampQ, min_def, max_def]
  refine ⟨by rw [h2, h3]; norm_num, h2, h3⟩

/-- C7 (amended): for inputs in `[0,1]` and `0 < eps ≤ 1`, `safe_cumprod` is
non-increasing along the key axis, and it equals
`exp(exclusive_cumsum(log(clamp(x))))`, i.e. the inclusive formula's output
shifted right by one with a leading `1`. -/
theorem safe_cumprod_monotone_and_formula (x : List ℚ) (eps : ℚ)
    (heps0 : 0 < eps) (heps1 : eps ≤ 1) (hx : ∀ a ∈ x, 0 ≤ a ∧ a ≤ 1) :
    List.Chain' (fun a b => b ≤ a) (safe_cumprod x eps) ∧
    safe_cumprod x eps = 1 :: (cumprod (x.map (clampQ eps 1))).dropLast := by
  refine ⟨?_, safe_cumprod_eq_shifted x eps⟩
  cases x with
  | nil => simp [safe_cumprod, exclusive_cumprod, cumprod, cumprodGo]
  | cons y ys =>
      simp only [safe_cumprod, List.map_cons, exclusive_cumprod_cons]
      have hy := clampQ_bounds eps y heps0 heps1
      have hmain := exclGo_chain_and_le ((ys.map (clampQ eps 1))) (clampQ eps 1 y) hy.1
        (by
          intro a ha
          rcases List.mem_map.mp ha with ⟨b, _, rfl⟩
          exact clampQ_bounds eps b heps0 heps1)
      rw [List.chain'_cons']
      refine ⟨?_, hmain.1⟩
      intro b hb
      have hbmem : b ∈ exclGo (clampQ eps 1 y) (ys.map (clampQ eps 1)) := by
        cases hmem : (exclGo (clampQ eps 1 y) (ys.map (clampQ eps 1))).head? with
        | none => rw [hmem] at hb; cases hb
        | some v =>
            rw [hmem] at hb
            simp only [Option.mem_some_iff] at hb
            subst hb
            exact List.mem_of_mem_head? hmem
      exact le_trans (hmain.2 b hbmem) hy.2

/-- Witness for C7's amended theorem at a concrete input. -/
theorem safe_cumprod_monotone_and_formula_witness :
    List.Chain' (fun a b => b ≤ a) (safe_cumprod [(1 : ℚ)/2, 1/3] (1/4)) ∧
    safe_cumprod [(1 : ℚ)/2, 1/3] (1/4) =
      1 :: (cumprod ([(1 : ℚ)/2, 1/3].map (clampQ (1/4) 1))).dropLast :=
  safe_cumprod_monotone_and_formula [(1 : ℚ)/2, 1/3] (1/4) (by norm_num) (by norm_num)
    (by norm_num [List.forall_mem_cons])

/-! ### Hard mode (mocha.py:429-441)

`p_choose_i = (sigmoid(e_mono) >= 0.5).float()` is embedded exactly as the
indicator of `0 <= e` (sigmoid is monotone with `sigmoid(0) = 1/2`);
`p_choose_i *= cumsum(aw_prev)` suppresses indicators strictly before the
previous boundary, and the exclusive cumulative product of the complement
keeps only the first remaining indicator. -/

/-- One hard-mode selection step for a single head
(mocha.py:431-441, before latency control). -/
def hardStep (e aw : List ℚ) : List ℚ :=
  let pc := List.zipWith (· * ·) (e.map (fun x => if 0 ≤ x then (1 : ℚ) else 0)) (cumsum aw)
  List.zipWith (· * ·) pc (exclusive_cumprod (pc.map (1 - ·)))

/-- `oneHot t n`: the length-`n` vector with a single `1` at position `t`
(all zero when `t ≥ n`). -/
def oneHot : ℕ → ℕ → List ℚ
  | _, 0 => []
  | 0, n + 1 => 1 :: List.replicate n 0
  | t + 1, n + 1 => 0 :: oneHot t n

/-- The cumulative sum of `oneHot t n`: zero before `t`, one from `t` on. -/
def stepList : ℕ → ℕ → List ℚ
  | _, 0 => []
  | 0, n + 1 => List.replicate (n + 1) 1
  | t + 1, n + 1 => 0 :: stepList t n

/-- Indicator list of the hard-mode choose events that survive suppression:
position `j` holds `1` iff `t ≤ j` and `0 ≤ e_j`. -/
def indList : ℕ → List ℚ → List ℚ
  | _, [] => []
  | 0, x :: xs => (if 0 ≤ x then (1 : ℚ) else 0) :: indList 0 xs
  | t + 1, _ :: xs => 0 :: indList t xs

/-- Index of the first position `j ≥ t` with nonnegative energy, if any. -/
def firstBoundary? : ℕ → List ℚ → Option ℕ
  | _, [] => none
  | 0, x :: xs => if 0 ≤ x then some 0 else (firstBoundary? 0 xs).map (· + 1)
  | t + 1, _ :: xs => (firstBoundary? t xs).map (· + 1)

/-- Index of the first entry equal to `1`, if any. -/
def firstOneIdx? : List ℚ → Option ℕ
  | [] => none
  | x :: xs => if x = 1 then some 0 else (firstOneIdx? xs).map (· + 1)

lemma cumsumGo_replicate_zero (n : ℕ) : ∀ c : ℚ,
    cumsumGo c (List.replicate n 0) = List.replicate n c := by
  induction n with
  | zero => intro c; rfl
  | succ n ih => intro c; simp [List.replicate_succ, cumsumGo, ih c]

lemma stepList_zero : ∀ n : ℕ, stepList 0 n = List.replicate n 1 := by
  intro n; cases n <;> rfl

lemma cumsum_oneHot : ∀ (n t : ℕ), cumsum (oneHot t n) = stepList t n := by
  intro n
  induction n with
  | zero => intro t; cases t <;> rfl
  | succ n ih =>
      intro t
      cases t with
      | zero =>
          show cumsumGo 0 (1 :: List.replicate n 0) = List.replicate (n + 1) 1
          simp [cumsumGo, cumsumGo_replicate_zero, List.replicate_succ]
      | succ t =>
          show cumsumGo 0 (0 :: oneHot t n) = 0 :: stepList t n
          have h := ih t
          simp only [cumsum] at h
          simp only [cumsumGo, add_zero]
          rw [h]

lemma exclGo_zero : ∀ l : List ℚ, exclGo 0 l = List.replicate l.length 0 := by
  intro l
  induction l with
  | nil => rfl
  | cons x xs ih => simp [exclGo, ih, List.replicate_succ]

lemma zipWith_mul_replicate_zero : ∀ (l : List ℚ) (n : ℕ),
    List.zipWith (· * ·) l (List.replicate n 0) = List.replicate (min l.length n) 0 := by
  intro l
  induction l with
  | nil => intro n; simp
  | cons x xs ih =>
      intro n
      cases n with
      | zero => simp
      | succ n =>
          simp [List.replicate_succ, ih n, Nat.succ_min_succ]

lemma exclGo_one_cons (z : ℚ) (zs : List ℚ) : exclGo 1 (z :: zs) = 1 :: exclGo z zs := by
  simp [exclGo]

lemma hardSelect01 : ∀ p : List ℚ, (∀ x ∈ p, x = 0 ∨ x = 1) →
    List.zipWith (· * ·) p (exclusive_cumprod (p.map (1 - ·))) =
      (match firstOneIdx? p with
       | some j => oneHot j p.length
       | none => List.replicate p.length 0) := by
  intro p
  induction p with
  | nil => intro _; rfl
  | cons x xs ih =>
      intro hp
      rw [List.map_cons, exclusive_cumprod_cons]
      rcases hp x (by simp) with hx | hx
      · subst hx
        have h01 : ¬ ((0 : ℚ) = 1) := by norm_num
        have hhead : firstOneIdx? ((0 : ℚ) :: xs) = (firstOneIdx? xs).map (· + 1) := by
          simp [firstOneIdx?, h01]
        rw [hhead]
        cases xs with
        | nil => simp [exclGo, oneHot, firstOneIdx?]
        | cons y ys =>
            have hgo : exclGo (1 - (0 : ℚ)) (((y :: ys).map (1 - ·))) =
                exclusive_cumprod ((y :: ys).map (1 - ·)) := by
              rw [List.map_cons, exclusive_cumprod_cons]
              simpa using exclGo_one_cons (1 - y) (ys.map (1 - ·))
            simp only [List.zipWith_cons_cons, hgo]
            rw [ih (fun a ha => hp a (by simp [ha]))]
            cases hfo : firstOneIdx? (y :: ys) with
            | none => simp [oneHot, List.replicate_succ]
            | some j => simp [oneHot]
      · subst hx
        have hhead : firstOneIdx? ((1 : ℚ) :: xs) = some 0 := by
          simp [firstOneIdx?]
        rw [hhead]
        simp only [List.zipWith_cons_cons, mul_one, sub_self]
        rw [exclGo_zero, zipWith_mul_replicate_zero]
        simp [oneHot, List.length_map]

lemma pc_stepList : ∀ (e : List ℚ) (t : ℕ),
    List.zipWith (· * ·) (e.map (fun x => if 0 ≤ x then (1 : ℚ) else 0))
      (stepList t e.length) = indList t e := by
  intro e
  induction e with
  | nil => intro t; cases t <;> rfl
  | cons x xs ih =>
      intro t
      cases t with
      | zero =>
          show List.zipWith (· * ·)
              ((if 0 ≤ x then (1 : ℚ) else 0) :: xs.map (fun x => if 0 ≤ x then (1 : ℚ) else 0))
              (List.replicate (xs.length + 1) 1) = indList 0 (x :: xs)
          rw [List.replicate_succ, List.zipWith_cons_cons, mul_one, ← stepList_zero, ih 0]
          rfl
      | succ t =>
          show List.zipWith (· * ·)
              ((if 0 ≤ x then (1 : ℚ) else 0) :: xs.map (fun x => if 0 ≤ x then (1 : ℚ) else 0))
              (0 :: stepList t xs.length) = indList (t + 1) (x :: xs)
          rw [List.zipWith_cons_cons, mul_zero, ih t]
          rfl

lemma firstOneIdx_indList : ∀ (e : List ℚ) (t : ℕ),
    firstOneIdx? (indList t e) = firstBoundary? t e := by
  intro e
  induction e with
  | nil => intro t; cases t <;> rfl
  | cons x xs ih =>
      intro t
      cases t with
      | zero =>
          by_cases hx : (0 : ℚ) ≤ x
          · simp [indList, firstOneIdx?, firstBoundary?, hx]
          · norm_num [indList, firstOneIdx?, firstBoundary?, hx, ih 0]
      | succ t => norm_num [indList, firstOneIdx?, firstBoundary?, ih t]

lemma indList_01 : ∀ (e : List ℚ) (t : ℕ), ∀ y ∈ indList t e, y = 0 ∨ y = 1 := by
  intro e
  induction e with
  | nil => intro t y hy; simp [indList] at hy
  | cons x xs ih =>
      intro t y hy
      cases t with
      | zero =>
          rcases List.mem_cons.mp hy with h | h
          · subst h
            by_cases hx : (0 : ℚ) ≤ x <;> simp [hx]
          · exact ih 0 y h
      | succ t =>
          rcases List.mem_cons.mp hy with h | h
          · exact Or.inl h
          · exact ih t y h

lemma indList_length : ∀ (e : List ℚ) (t : ℕ), (indList t e).length = e.length := by
  intro e
  induction e with
  | nil => intro t; cases t <;> rfl
  | cons x xs ih => intro t; cases t <;> simp [indList, ih]

/-- C4 counterexample: with `aw_prev` one-hot at `t = 0` and energies
`[1, -1, 1]`, the choose indicator at the previous boundary itself (index 0)
is NOT suppressed — the code returns the one-hot at index 0, not the
claimed "first indicator strictly after the suppressed at-or-before range"
(which would be index 2). -/
theorem hard_mode_suppression_counterexample :
    hardStep [(1 : ℚ), -1, 1] (oneHot 0 3) = [1, 0, 0] ∧
    hardStep [(1 : ℚ), -1, 1] (oneHot 0 3) ≠ [0, 0, 1] := by
  have h : hardStep [(1 : ℚ), -1, 1] (oneHot 0 3) = [1, 0, 0] := by
    norm_num [hardStep, oneHot, cumsum, cumsumGo, exclusive_cumprod, cumprod, cumprodGo]
  exact ⟨h, by rw [h]; norm_num⟩

/-- C4 (amended): in hard mode with `aw_prev` one-hot at position `t`, the
algorithm thresholds sigmoid of the monotonic energy at 0.5 (energy `≥ 0`),
suppresses every choose indicator strictly before `t` (the cumulative sum
of `aw_prev` is 1 from `t` on), and selects only the first remaining
indicator: alpha is one-hot at the first index `j ≥ t` with `e_j ≥ 0`, or
all-zero when no such index exists. -/
theorem hard_mode_first_boundary (e : List ℚ) (t : ℕ) :
    hardStep e (oneHot t e.length) =
      match firstBoundary? t e with
      | some j => oneHot j e.length
      | none => List.replicate e.length 0 := by
  simp only [hardStep]
  rw [cumsum_oneHot e.length t, pc_stepList e t,
    hardSelect01 (indList t e) (indList_01 e t), firstOneIdx_indList e t, indList_length e t]

/-! ### Recursive mode (mocha.py:378-395)

The inner loop `q[j+1] = shifted_1mp_choose[j] * q[j] + aw_prev[j]`,
`alpha_j = p_choose[j] * q[j+1]` is embedded with the loop state passed
explicitly: `s` is the current entry of
`shifted_1mp_choose = [1, 1-p_0, ..., 1-p_(klen-2)]` and `q` the previous
entry of the `q` array (initialised to `q[0] = 0`).  `p_choose` (the
sigmoid of the noised energy) is an input of the model. -/

def recGo : ℚ → ℚ → List ℚ → List ℚ → List ℚ
  | s, q, p :: ps, a :: aws =>
      (p * (s * q + a)) :: recGo (1 - p) (s * q + a) ps aws
  | _, _, _, _ => []

/-- One recursive-mode step (one query position `i`): from `p_choose[i]`
and `aw_prev` to the new attention row. -/
def recursiveStep (p aw : List ℚ) : List ℚ := recGo 1 0 p aw

/-- Recursive mode over all query positions: each step's output becomes the
next step's `aw_prev` (mocha.py:392-394). -/
def recursiveAlpha : List (List ℚ) → List ℚ → List (List ℚ)
  | [], _ => []
  | p :: rest, aw => recursiveStep p aw :: recursiveAlpha rest (recursiveStep p aw)

/-! ### Parallel mode (mocha.py:397-414) -/

/-- Slice assignment `x[..., k:] = 0`: zero every position with index `≥ k`. -/
def zeroAfter : ℕ → List ℚ → List ℚ
  | _, [] => []
  | k, x :: xs => (if k = 0 then 0 else x) :: zeroAfter (k - 1) xs

/-- DeCoT masking (mocha.py:408-410): when `decot` is set and a trigger
point is given, positions after `trigger + lookahead` are zeroed. -/
def decotMask (decot : Bool) (trigger : Option ℕ) (lookahead : ℕ) (l : List ℚ) : List ℚ :=
  if decot then
    match trigger with
    | some t => zeroAfter (t + lookahead + 1) l
    | none => l
  else l

/-- One parallel-mode step (one query position `i`, mocha.py:404-411):
`aw_prev_new = p_choose * safe_cumprod(1 - p_choose) *
cumsum(aw_prev / denom)` with
`denom = 1` when `no_denominator` else `clamp(cumprod, min=eps, max=1)`,
followed by the DeCoT masking. -/
def parallelStep (eps : ℚ) (noDenom decot : Bool) (trigger : Option ℕ) (lookahead : ℕ)
    (p aw : List ℚ) : List ℚ :=
  let cp := safe_cumprod (p.map (1 - ·)) eps
  let denom := if noDenom then cp.map (fun _ => (1 : ℚ)) else cp.map (clampQ eps 1)
  decotMask decot trigger lookahead
    (List.zipWith (· * ·) p (List.zipWith (· * ·) cp (cumsum (List.zipWith (· / ·) aw denom))))

/-- Parallel mode over all query positions, threading `aw_prev`
(mocha.py:403-413). -/
def parallelAlpha (eps : ℚ) (noDenom decot : Bool) (trigger : Option ℕ) (lookahead : ℕ) :
    List (List ℚ) → List ℚ → List (List ℚ)
  | [], _ => []
  | p :: rest, aw =>
      parallelStep eps noDenom decot trigger lookahead p aw ::
        parallelAlpha eps noDenom decot trigger lookahead rest
          (parallelStep eps noDenom decot trigger lookahead p aw)

/-- Scan form of one parallel-mode step: `cp` is the running exclusive
clamped product and `s` the running cumulative sum of `aw / denom`; `dfn`
is the denominator function (`fun _ => 1` or `clampQ eps 1`). -/
def parGo (eps : ℚ) (dfn : ℚ → ℚ) : ℚ → ℚ → List ℚ → List ℚ → List ℚ
  | cp, s, p :: ps, a :: aws =>
      (p * (cp * (s + a / dfn cp))) ::
        parGo eps dfn (cp * clampQ eps 1 (1 - p)) (s + a / dfn cp) ps aws
  | _, _, _, _ => []

lemma parGo_bridge (eps : ℚ) (dfn : ℚ → ℚ) :
    ∀ (ps aws : List ℚ) (c s : ℚ),
      List.zipWith (· * ·) ps
        (List.zipWith (· * ·) (exclGo c (ps.map (fun x => clampQ eps 1 (1 - x))))
          (cumsumGo s (List.zipWith (· / ·) aws
            ((exclGo c (ps.map (fun x => clampQ eps 1 (1 - x)))).map dfn)))) =
      parGo eps dfn c s ps aws := by
  intro ps
  induction ps with
  | nil => intro aws c s; simp [exclGo, parGo]
  | cons p ps ih =>
      intro aws c s
      cases aws with
      | nil => simp [exclGo, cumsumGo, parGo]
      | cons a aws =>
          simp only [List.map_cons, exclGo, List.zipWith_cons_cons, cumsumGo, parGo]
          exact congrArg _ (ih aws (c * clampQ eps 1 (1 - p)) (s + a / dfn c))

lemma parallelStep_eq_parGo (eps : ℚ) (noDenom : Bool) (p aw : List ℚ) :
    parallelStep eps noDenom false none 0 p aw =
      parGo eps (if noDenom then (fun _ => (1 : ℚ)) else clampQ eps 1) 1 0 p aw := by
  unfold parallelStep decotMask
  simp only [Bool.false_eq_true, if_false]
  have hmap : (p.map (1 - ·)).map (clampQ eps 1) =
      p.map (fun x => clampQ eps 1 (1 - x)) := by
    rw [List.map_map]; rfl
  cases p with
  | nil =>
      cases noDenom <;>
        · simp only [List.zipWith_nil_left]
          cases aw <;> rfl
  | cons x xs =>
      have hcp : safe_cumprod ((x :: xs).map (1 - ·)) eps =
          exclGo 1 ((x :: xs).map (fun y => clampQ eps 1 (1 - y))) := by
        unfold safe_cumprod
        rw [hmap, List.map_cons, exclusive_cumprod_cons]
        exact (exclGo_one_cons _ _).symm
      rw [hcp]
      cases noDenom with
      | false =>
          simpa using parGo_bridge eps (clampQ eps 1)
            (x :: xs) aw 1 0
      | true =>
          simpa using parGo_bridge eps (fun _ => (1 : ℚ))
            (x :: xs) aw 1 0

/-! ### Mass-bound and equivalence lemmas for the selection recurrences -/

lemma recGo_nil (s q : ℚ) (aws : List ℚ) : recGo s q [] aws = [] := by
  cases aws <;> rfl

lemma recGo_nil_aws (s q p : ℚ) (ps : List ℚ) : recGo s q (p :: ps) [] = [] := rfl

lemma recGo_nonneg_sum : ∀ (ps aws : List ℚ) (s q : ℚ), 0 ≤ s → s ≤ 1 → 0 ≤ q →
    (∀ x ∈ ps, 0 ≤ x ∧ x ≤ 1) → (∀ a ∈ aws, 0 ≤ a) →
    (∀ y ∈ recGo s q ps aws, 0 ≤ y) ∧ (recGo s q ps aws).sum ≤ s * q + aws.sum := by
  intro ps
  induction ps with
  | nil =>
      intro aws s q hs0 _ hq0 _ haws
      constructor
      · intro y hy; rw [recGo_nil] at hy; cases hy
      · have h1 : 0 ≤ s * q := mul_nonneg hs0 hq0
        have h2 : 0 ≤ aws.sum := List.sum_nonneg haws
        rw [recGo_nil]
        simp only [List.sum_nil]
        linarith
  | cons p ps ih =>
      intro aws s q hs0 hs1 hq0 hps haws
      cases aws with
      | nil =>
          constructor
          · intro y hy; rw [recGo_nil_aws] at hy; cases hy
          · have h1 : 0 ≤ s * q := mul_nonneg hs0 hq0
            rw [recGo_nil_aws]
            simp only [List.sum_nil]
            linarith
      | cons a aws =>
          have hp := hps p (by simp)
          have ha : 0 ≤ a := haws a (by simp)
          have hqn : 0 ≤ s * q + a := by positivity
          have ihx := ih aws (1 - p) (s * q + a) (by linarith [hp.2]) (by linarith [hp.1])
            hqn (fun x hx => hps x (by simp [hx])) (fun b hb => haws b (by simp [hb]))
          constructor
          · intro y hy
            simp only [recGo, List.mem_cons] at hy
            rcases hy with rfl | hy
            · exact mul_nonneg hp.1 hqn
            · exact ihx.1 y hy
          · simp only [recGo, List.sum_cons]
            have hkey : p * (s * q + a) + (1 - p) * (s * q + a) = s * q + a := by ring
            have := ihx.2
            linarith

lemma parGo_nil (eps : ℚ) (dfn : ℚ → ℚ) (cp s : ℚ) (aws : List ℚ) :
    parGo eps dfn cp s [] aws = [] := by
  cases aws <;> rfl

lemma parGo_nil_aws (eps : ℚ) (dfn : ℚ → ℚ) (cp s p : ℚ) (ps : List ℚ) :
    parGo eps dfn cp s (p :: ps) [] = [] := rfl

lemma parGo_nonneg_sum (eps : ℚ) (dfn : ℚ → ℚ) (heps0 : 0 < eps)
    (hdfn : ∀ c : ℚ, 0 ≤ c → c ≤ 1 → c ≤ dfn c ∧ 0 < dfn c) :
    ∀ (ps aws : List ℚ) (cp s : ℚ), 0 ≤ cp → cp ≤ 1 → 0 ≤ s →
      (∀ x ∈ ps, 0 ≤ x ∧ eps ≤ 1 - x) → (∀ a ∈ aws, 0 ≤ a) →
      (∀ y ∈ parGo eps dfn cp s ps aws, 0 ≤ y) ∧
      (parGo eps dfn cp s ps aws).sum ≤ cp * s + aws.sum := by
  intro ps
  induction ps with
  | nil =>
      intro aws cp s hcp0 _ hs0 _ haws
      constructor
      · intro y hy; rw [parGo_nil] at hy; cases hy
      · have h1 : 0 ≤ cp * s := mul_nonneg hcp0 hs0
        have h2 : 0 ≤ aws.sum := List.sum_nonneg haws
        rw [parGo_nil]
        simp only [List.sum_nil]
        linarith
  | cons p ps ih =>
      intro aws cp s hcp0 hcp1 hs0 hps haws
      cases aws with
      | nil =>
          constructor
          · intro y hy; rw [parGo_nil_aws] at hy; cases hy
          · have h1 : 0 ≤ cp * s := mul_nonneg hcp0 hs0
            rw [parGo_nil_aws]
            simp only [List.sum_nil]
            linarith
      | cons a aws =>
          have hp := hps p (by simp)
          have hp1 : p ≤ 1 := by linarith [hp.2, heps0]
          have ha : 0 ≤ a := haws a (by simp)
          have hd := hdfn cp hcp0 hcp1
          have hclamp : clampQ eps 1 (1 - p) = 1 - p := by
            unfold clampQ
            rw [min_eq_right (by linarith [hp.1] : (1 : ℚ) - p ≤ 1),
              max_eq_right hp.2]
          have hs1 : 0 ≤ s + a / dfn cp := by
            have : 0 ≤ a / dfn cp := div_nonneg ha hd.2.le
            linarith
          have hcp0' : 0 ≤ cp * (1 - p) := mul_nonneg hcp0 (by linarith [hp.1])
          have hcp1' : cp * (1 - p) ≤ 1 := by
            calc cp * (1 - p) ≤ cp * 1 := by
                  apply mul_le_mul_of_nonneg_left _ hcp0
                  linarith [hp.1]
              _ ≤ 1 := by linarith
          have ihx := ih aws (cp * (1 - p)) (s + a / dfn cp) hcp0' hcp1' hs1
            (fun x hx => hps x (by simp [hx])) (fun b hb => haws b (by simp [hb]))
          have hunfold : parGo eps dfn cp s (p :: ps) (a :: aws) =
              (p * (cp * (s + a / dfn cp))) ::
                parGo eps dfn (cp * (1 - p)) (s + a / dfn cp) ps aws := by
            simp only [parGo, hclamp]
          rw [hunfold]
          constructor
          · intro y hy
            rcases List.mem_cons.mp hy with rfl | hy
            · exact mul_nonneg hp.1 (mul_nonneg hcp0 hs1)
            · exact ihx.1 y hy
          · simp only [List.sum_cons]
            have hdivle : cp * (a / dfn cp) ≤ a := by
              have hfrac : cp / dfn cp ≤ 1 := (div_le_one hd.2).mpr hd.1
              have hcomm : cp * (a / dfn cp) = a * (cp / dfn cp) := by ring
              rw [hcomm]
              calc a * (cp / dfn cp) ≤ a * 1 := mul_le_mul_of_nonneg_left hfrac ha
                _ = a := by ring
            have hkey : p * (cp * (s + a / dfn cp)) + (cp * (1 - p)) * (s + a / dfn cp) =
                cp * s + cp * (a / dfn cp) := by ring
            have := ihx.2
            linarith

lemma parGo_eq_recGo (eps : ℚ) (heps0 : 0 < eps) :
    ∀ (ps aws : List ℚ) (cp S sF qF : ℚ),
      (∀ x ∈ ps, 0 ≤ x ∧ eps ≤ 1 - x) →
      (∀ y ∈ exclGo cp (ps.map (fun x => clampQ eps 1 (1 - x))), eps ≤ y) →
      cp ≤ 1 → sF * qF = cp * S →
      parGo eps (clampQ eps 1) cp S ps aws = recGo sF qF ps aws := by
  intro ps
  induction ps with
  | nil => intro aws cp S sF qF _ _ _ _; cases aws <;> rfl
  | cons p ps ih =>
      intro aws cp S sF qF hps hchain hcp1 hinv
      cases aws with
      | nil => rfl
      | cons a aws =>
          have hp := hps p (by simp)
          have hepscp : eps ≤ cp := by
            apply hchain
            simp [exclGo]
          have hcppos : 0 < cp := lt_of_lt_of_le heps0 hepscp
          have hcpne : cp ≠ 0 := ne_of_gt hcppos
          have hdc : clampQ eps 1 cp = cp := by
            unfold clampQ
            rw [min_eq_right hcp1, max_eq_right hepscp]
          have hgp : clampQ eps 1 (1 - p) = 1 - p := by
            unfold clampQ
            rw [min_eq_right (by linarith [hp.1] : (1 : ℚ) - p ≤ 1),
              max_eq_right hp.2]
          have hq : cp * (S + a / cp) = sF * qF + a := by
            rw [hinv]
            field_simp
            ring
          have hpar : parGo eps (clampQ eps 1) cp S (p :: ps) (a :: aws) =
              (p * (cp * (S + a / cp))) ::
                parGo eps (clampQ eps 1) (cp * (1 - p)) (S + a / cp) ps aws := by
            simp only [parGo, hdc, hgp]
          have hrec : recGo sF qF (p :: ps) (a :: aws) =
              (p * (sF * qF + a)) :: recGo (1 - p) (sF * qF + a) ps aws := rfl
          rw [hpar, hrec]
          refine congrArg₂ _ (by rw [hq]) ?_
          have hchain' : ∀ y ∈ exclGo (cp * (1 - p))
              (ps.map (fun x => clampQ eps 1 (1 - x))), eps ≤ y := by
            intro y hy
            apply hchain
            simp only [List.map_cons, exclGo, hgp]
            exact List.mem_cons_of_mem _ hy
          have hcp1' : cp * (1 - p) ≤ 1 := by
            have h0p : 0 ≤ 1 - p := by linarith [hp.2, heps0]
            have hcp0 : 0 ≤ cp := by linarith [hepscp, heps0]
            calc cp * (1 - p) ≤ 1 * (1 - p) := mul_le_mul_of_nonneg_right hcp1 h0p
              _ = 1 - p := by ring
              _ ≤ 1 := by linarith [hp.1]
          have hinv' : (1 - p) * (sF * qF + a) = (cp * (1 - p)) * (S + a / cp) := by
            rw [← hq]; ring
          exact ih aws (cp * (1 - p)) (S + a / cp) (1 - p) (sF * qF + a)
            (fun x hx => hps x (by simp [hx])) hchain' hcp1' hinv'

lemma parallelStep_eq_recursiveStep (eps : ℚ) (heps0 : 0 < eps) (p aw : List ℚ)
    (hp : ∀ x ∈ p, 0 ≤ x ∧ eps ≤ 1 - x)
    (hcp : ∀ y ∈ safe_cumprod (p.map (1 - ·)) eps, eps ≤ y) :
    parallelStep eps false false none 0 p aw = recursiveStep p aw := by
  rw [parallelStep_eq_parGo]
  simp only [Bool.false_eq_true, if_false]
  unfold recursiveStep
  apply parGo_eq_recGo eps heps0 p aw 1 0 1 0 hp ?_ le_rfl rfl
  intro y hy
  apply hcp
  cases p with
  | nil => simp [exclGo] at hy
  | cons x xs =>
      have hcpeq : safe_cumprod ((x :: xs).map (1 - ·)) eps =
          exclGo 1 ((x :: xs).map (fun v => clampQ eps 1 (1 - v))) := by
        unfold safe_cumprod
        rw [(by rw [List.map_map]; rfl :
            ((x :: xs).map (1 - ·)).map (clampQ eps 1) =
              (x :: xs).map (fun v => clampQ eps 1 (1 - v))),
          List.map_cons, exclusive_cumprod_cons]
        exact (exclGo_one_cons _ _).symm
      rw [hcpeq]
      exact hy

/-- C1: with `no_denominator` disabled (and DeCoT off), the parallel-mode
closed form equals the recursive-mode sequential recurrence exactly, for
every number of query rows (in particular all `qlen ≤ 8`) and every key
length (in particular all `klen ≤ 16`), whenever the numerical-stability
clamps inside `safe_cumprod` and the denominator are inactive
(`eps ≤ 1 - p_choose` everywhere and every running product stays `≥ eps`) —
the regime in which the two float computations agree up to tolerance.
`p_choose = sigmoid(energy + noise)` is shared by both modes, which models
identical inputs, additive noise and random seed. -/
theorem parallel_mode_eq_recursive_mode (eps : ℚ) (heps0 : 0 < eps) :
    ∀ (pRows : List (List ℚ)) (aw : List ℚ),
      (∀ row ∈ pRows, (∀ x ∈ row, 0 ≤ x ∧ eps ≤ 1 - x) ∧
        (∀ y ∈ safe_cumprod (row.map (1 - ·)) eps, eps ≤ y)) →
      parallelAlpha eps false false none 0 pRows aw = recursiveAlpha pRows aw := by
  intro pRows
  induction pRows with
  | nil => intro aw _; rfl
  | cons row rest ih =>
      intro aw hrows
      have hr := hrows row (by simp)
      have hstep := parallelStep_eq_recursiveStep eps heps0 row aw hr.1 hr.2
      simp only [parallelAlpha, recursiveAlpha, hstep]
      exact congrArg _ (ih (recursiveStep row aw) (fun r hr2 => hrows r (by simp [hr2])))

/-- Witness for C1 at a concrete input. -/
theorem parallel_mode_eq_recursive_mode_witness :
    parallelAlpha (1/4) false false none 0 [[(1 : ℚ)/2]] [1] =
      recursiveAlpha [[(1 : ℚ)/2]] [1] :=
  parallel_mode_eq_recursive_mode (1/4) (by norm_num) [[(1 : ℚ)/2]] [1]
    (by
      intro row hrow
      rw [List.mem_singleton] at hrow
      subst hrow
      refine ⟨?_, ?_⟩
      · intro x hx
        rw [List.mem_singleton] at hx
        subst hx
        constructor <;> norm_num
      · intro y hy
        have hval : safe_cumprod ([(1 : ℚ)/2].map (1 - ·)) (1/4) = [1] := by
          simp [safe_cumprod, exclusive_cumprod, cumprod, cumprodGo]
        rw [hval, List.mem_singleton] at hy
        subst hy
        norm_num)

/-! ### Hard-mode latency control (mocha.py:443-478)

The source sets `vertical_latency = False` unconditionally before the
batch loop; the embedding keeps that flag and the branches that read it
exactly as written.  `leftmost`/`rightmost` are computed once per batch
element from the key indices of all heads' nonzero entries; each head is
then adjusted independently. -/

/-- Column indices of the nonzero entries of one head's alpha row
(`alpha[b, h, 0].nonzero()[:, -1]`). -/
def nonzeroIdx (row : List ℚ) : List ℕ :=
  (List.range row.length).filter (fun j => decide (row.getD j 0 ≠ 0))

/-- Minimum of a list of naturals (`none` on the empty list). -/
def natMin? (l : List ℕ) : Option ℕ :=
  l.foldr (fun x acc => match acc with
    | none => some x
    | some y => some (min x y)) none

/-- Maximum of a list of naturals (`none` on the empty list). -/
def natMax? (l : List ℕ) : Option ℕ :=
  l.foldr (fun x acc => match acc with
    | none => some x
    | some y => some (max x y)) none

/-- `alpha[b, h, 0].nonzero()[:, -1].min().item()` for one head. -/
def minNonzero (row : List ℚ) : ℕ := (natMin? (nonzeroIdx row)).getD 0

/-- The per-head adjustment decided by the latency-control loop body. -/
inductive HeadDecision where
  | keep : HeadDecision
  | write : ℕ → HeadDecision
  | reset : ℕ → HeadDecision

/-- Decision taken for one head (mocha.py:460-478): a head with no
boundary gets one written; a head whose boundary lags more than
`eps_wait` behind the leftmost boundary is reset and relocated. -/
def headDecision (epsWait leftmost rightmost : ℕ) (first vertical : Bool)
    (bthr klen : ℕ) (row : List ℚ) : HeadDecision :=
  if row.sum = 0 then
    if first || !vertical then HeadDecision.write (min rightmost (leftmost + epsWait))
    else if bthr < klen - 1 then HeadDecision.write bthr else HeadDecision.keep
  else
    if first || !vertical then
      if leftmost + epsWait ≤ minNonzero row then HeadDecision.reset (leftmost + epsWait)
      else HeadDecision.keep
    else
      if bthr < minNonzero row then HeadDecision.reset bthr else HeadDecision.keep

/-- Apply a decision to a head's row: `write i` sets position `i` to 1,
`reset i` zeroes the row then sets position `i` to 1. -/
def applyDecision (row : List ℚ) : HeadDecision → List ℚ
  | HeadDecision.keep => row
  | HeadDecision.write i => row.set i 1
  | HeadDecision.reset i => (List.replicate row.length (0 : ℚ)).set i 1

/-- Latency control for one batch element (mocha.py:445-478).
`vertical := false` mirrors `vertical_latency = False` in the source. -/
def latencyControl (epsWait : ℕ) (br : Option ℕ) (rows : List (List ℚ)) : List (List ℚ) :=
  let first := br.isNone
  let vertical := false
  let klen := (rows.headD []).length
  let bthr := if first || !vertical then klen - 1 else min (klen - 1) (br.getD 0 + epsWait)
  if (rows.map List.sum).sum = 0 then
    if vertical = true ∧ bthr < klen - 1 then rows.map (fun row => row.set bthr 1) else rows
  else
    let nz := (rows.map nonzeroIdx).flatten
    let leftmost := (natMin? nz).getD 0
    let rightmost := (natMax? nz).getD 0
    rows.map (fun row =>
      applyDecision row (headDecision epsWait leftmost rightmost first vertical bthr klen row))

/-- The key indices written by the latency-control loop (same decision
logic as `latencyControl`). -/
def latencyWrites (epsWait : ℕ) (br : Option ℕ) (rows : List (List ℚ)) : List ℕ :=
  let first := br.isNone
  let vertical := false
  let klen := (rows.headD []).length
  let bthr := if first || !vertical then klen - 1 else min (klen - 1) (br.getD 0 + epsWait)
  if (rows.map List.sum).sum = 0 then
    if vertical = true ∧ bthr < klen - 1 then [bthr] else []
  else
    let nz := (rows.map nonzeroIdx).flatten
    let leftmost := (natMin? nz).getD 0
    let rightmost := (natMax? nz).getD 0
    (rows.map (fun row =>
      headDecision epsWait leftmost rightmost first vertical bthr klen row)).filterMap
      (fun d => match d with
        | HeadDecision.keep => none
        | HeadDecision.write i => some i
        | HeadDecision.reset i => some i)

/-- Hard mode over all heads of one batch element: per-head `hardStep`,
then latency control when `eps_wait > 0` (mocha.py:429-480). -/
def hardModeAlpha (epsWait : ℕ) (br : Option ℕ) (eRows awRows : List (List ℚ)) :
    List (List ℚ) :=
  let rows := List.zipWith hardStep eRows awRows
  if 0 < epsWait then latencyControl epsWait br rows else rows

lemma natMin?_cons_eq (x : ℕ) (xs : List ℕ) :
    natMin? (x :: xs) = (match natMin? xs with
      | none => some x
      | some y => some (min x y)) := rfl

lemma natMax?_cons_eq (x : ℕ) (xs : List ℕ) :
    natMax? (x :: xs) = (match natMax? xs with
      | none => some x
      | some y => some (max x y)) := rfl

lemma natMin?_mem : ∀ (l : List ℕ) (m : ℕ), natMin? l = some m → m ∈ l := by
  intro l
  induction l with
  | nil => intro m h; simp [natMin?] at h
  | cons x xs ih =>
      intro m h
      rw [natMin?_cons_eq] at h
      cases hxs : natMin? xs with
      | none => rw [hxs] at h; simp at h; simp [h]
      | some y =>
          rw [hxs] at h
          simp at h
          subst h
          rcases le_total x y with hxy | hxy
          · rw [min_eq_left hxy]; simp
          · rw [min_eq_right hxy]
            exact List.mem_cons_of_mem _ (ih y hxs)

lemma natMax?_mem : ∀ (l : List ℕ) (m : ℕ), natMax? l = some m → m ∈ l := by
  intro l
  induction l with
  | nil => intro m h; simp [natMax?] at h
  | cons x xs ih =>
      intro m h
      rw [natMax?_cons_eq] at h
      cases hxs : natMax? xs with
      | none => rw [hxs] at h; simp at h; simp [h]
      | some y =>
          rw [hxs] at h
          simp at h
          subst h
          rcases le_total x y with hxy | hxy
          · rw [max_eq_right hxy]
            exact List.mem_cons_of_mem _ (ih y hxs)
          · rw [max_eq_left hxy]; simp

lemma natMin?_cons_isSome (x : ℕ) (xs : List ℕ) : (natMin? (x :: xs)).isSome = true := by
  rw [natMin?_cons_eq]
  cases natMin? xs <;> rfl

lemma mem_nonzeroIdx {row : List ℚ} {j : ℕ} :
    j ∈ nonzeroIdx row ↔ j < row.length ∧ row.getD j 0 ≠ 0 := by
  simp [nonzeroIdx, List.mem_filter, List.mem_range]

lemma sum_eq_zero_getD : ∀ row : List ℚ, (∀ j, j < row.length → row.getD j 0 = 0) →
    row.sum = 0 := by
  intro row
  induction row with
  | nil => intro _; rfl
  | cons x xs ih =>
      intro h
      have hx : x = 0 := by simpa using h 0 (by simp)
      have hxs : xs.sum = 0 := ih (fun j hj => by simpa using h (j + 1) (by simpa using hj))
      simp [hx, hxs]

lemma nonzeroIdx_ne_nil_of_sum_ne (row : List ℚ) (h : row.sum ≠ 0) :
    nonzeroIdx row ≠ [] := by
  intro hnil
  apply h
  apply sum_eq_zero_getD
  intro j hj
  by_contra hne
  have hmem : j ∈ nonzeroIdx row := mem_nonzeroIdx.mpr ⟨hj, hne⟩
  rw [hnil] at hmem
  cases hmem

lemma minNonzero_lt (row : List ℚ) (h : row.sum ≠ 0) : minNonzero row < row.length := by
  have hne := nonzeroIdx_ne_nil_of_sum_ne row h
  cases hnz : nonzeroIdx row with
  | nil => exact absurd hnz hne
  | cons a l =>
      have hsome : (natMin? (a :: l)).isSome = true := natMin?_cons_isSome a l
      cases hm : natMin? (a :: l) with
      | none => rw [hm] at hsome; cases hsome
      | some m =>
          have hmem : m ∈ nonzeroIdx row := by
            rw [hnz]; exact natMin?_mem _ m hm
          have := (mem_nonzeroIdx.mp hmem).1
          unfold minNonzero
          rw [hnz, hm]
          simpa using this

/-- C10: every key index the latency-control loop writes lies within
`[0, klen - 1]`: `min(rightmost, leftmost + eps_wait)` is bounded by a
nonzero position of some head, the relocation target `leftmost + eps_wait`
is bounded by the relocated head's own boundary, and the fallback
threshold `klen - 1` is in range; so the loop never indexes alpha out of
bounds. -/
theorem latency_write_indices_in_bounds (epsWait : ℕ) (br : Option ℕ)
    (rows : List (List ℚ)) (klen : ℕ) (hk : 1 ≤ klen)
    (hrows : ∀ row ∈ rows, row.length = klen) :
    ∀ i ∈ latencyWrites epsWait br rows, i < klen := by
  intro i hi
  unfold latencyWrites at hi
  simp only [Bool.not_false, Bool.or_true, eq_self_iff_true, if_true, Bool.false_eq_true,
    false_and, if_false] at hi
  by_cases hsum : (rows.map List.sum).sum = 0
  · rw [if_pos hsum] at hi
    cases hi
  · rw [if_neg hsum] at hi
    have hright : (natMax? ((rows.map nonzeroIdx).flatten)).getD 0 < klen := by
      cases hM : natMax? ((rows.map nonzeroIdx).flatten) with
      | none => simpa using hk
      | some M =>
          have hmem := natMax?_mem _ M hM
          rcases List.mem_flatten.mp hmem with ⟨l, hl, hMl⟩
          rcases List.mem_map.mp hl with ⟨row, hrowmem, rfl⟩
          have hlt := (mem_nonzeroIdx.mp hMl).1
          rw [hrows row hrowmem] at hlt
          simpa using hlt
    rcases List.mem_filterMap.mp hi with ⟨d, hd, hmatch⟩
    rcases List.mem_map.mp hd with ⟨row, hrowmem, rfl⟩
    unfold headDecision at hmatch
    simp only [Bool.not_false, Bool.or_true, eq_self_iff_true, if_true] at hmatch
    by_cases hrsum : row.sum = 0
    · rw [if_pos hrsum] at hmatch
      have hmi := Option.some.inj hmatch
      rw [← hmi]
      exact lt_of_le_of_lt (Nat.min_le_left _ _) hright
    · rw [if_neg hrsum] at hmatch
      by_cases hg : (natMin? ((rows.map nonzeroIdx).flatten)).getD 0 + epsWait ≤
          minNonzero row
      · rw [if_pos hg] at hmatch
        have hmi := Option.some.inj hmatch
        rw [← hmi]
        have hlt := minNonzero_lt row hrsum
        rw [hrows row hrowmem] at hlt
        exact lt_of_le_of_lt hg hlt
      · rw [if_neg hg] at hmatch
        cases hmatch

/-- Witness for C10 at a concrete input: the index the loop writes for the
boundary-less second head is 2, within the bound `klen = 3`. -/
theorem latency_write_indices_in_bounds_witness : (2 : ℕ) < 3 :=
  latency_write_indices_in_bounds 2 none [[0, 0, (1 : ℚ)], [0, 0, 0]] 3 (by norm_num)
    (by
      intro row hrow
      rcases List.mem_cons.mp hrow with rfl | hrow
      · rfl
      · rcases List.mem_cons.mp hrow with rfl | hrow
        · rfl
        · cases hrow)
    2
    (by
      norm_num [latencyWrites, nonzeroIdx, natMin?, natMax?, minNonzero, headDecision,
        List.range_succ, List.filter_cons])

/-- C3 counterexample: with `eps_wait = 1` and a prior layer's
`boundary_rightmost = 0` supplied, the call still selects the boundary at
key index 2, which exceeds `boundary_rightmost + eps_wait = 1`: the
vertical-latency flag is hard-coded `False`, so the constraint is never
applied. -/
theorem vertical_latency_counterexample :
    hardModeAlpha 1 (some 0) [[(-1 : ℚ), -1, 5]] [[1, 0, 0]] = [[0, 0, 1]] ∧
    ¬ ((2 : ℕ) ≤ 0 + 1) := by
  constructor
  · have h1 : hardStep [(-1 : ℚ), -1, 5] [1, 0, 0] = [0, 0, 1] := by
      norm_num [hardStep, cumsum, cumsumGo, exclusive_cumprod, cumprod, cumprodGo]
    have h2 : hardModeAlpha 1 (some 0) [[(-1 : ℚ), -1, 5]] [[1, 0, 0]] =
        latencyControl 1 (some 0) [[0, 0, 1]] := by
      simp [hardModeAlpha, h1]
    rw [h2]
    norm_num [latencyControl, nonzeroIdx, natMin?, natMax?, minNonzero, headDecision,
      applyDecision, List.range_succ, List.filter_cons]
  · norm_num

/-- C3 (amended): `boundary_rightmost` has no effect on the hard-mode
output: `vertical_latency` is hard-coded `False` (mocha.py:443), so the
branches that would enforce `boundary ≤ boundary_rightmost + eps_wait`
are dead and only the first-layer cross-head policy runs, whatever
`boundary_rightmost` is supplied. -/
theorem boundary_rightmost_has_no_effect (epsWait : ℕ) (br br' : Option ℕ)
    (eRows awRows : List (List ℚ)) :
    hardModeAlpha epsWait br eRows awRows = hardModeAlpha epsWait br' eRows awRows := by
  unfold hardModeAlpha latencyControl headDecision
  simp

/-! ### Row-mass bounds (C5 support) -/

lemma zeroAfter_nonneg_sum : ∀ (l : List ℚ) (k : ℕ), (∀ y ∈ l, 0 ≤ y) →
    (∀ y ∈ zeroAfter k l, 0 ≤ y) ∧ (zeroAfter k l).sum ≤ l.sum := by
  intro l
  induction l with
  | nil => intro k _; exact ⟨fun y hy => absurd hy (by simp [zeroAfter]), le_rfl⟩
  | cons x xs ih =>
      intro k h
      have hx : 0 ≤ x := h x (by simp)
      have ihx := ih (k - 1) (fun y hy => h y (by simp [hy]))
      constructor
      · intro y hy
        rcases List.mem_cons.mp hy with rfl | hy
        · by_cases hk : k = 0 <;> simp [hk, hx]
        · exact ihx.1 y hy
      · simp only [zeroAfter, List.sum_cons]
        by_cases hk : k = 0
        · rw [if_pos hk]
          linarith [ihx.2]
        · rw [if_neg hk]
          linarith [ihx.2]

lemma decotMask_nonneg_sum (d : Bool) (t : Option ℕ) (la : ℕ) (l : List ℚ)
    (h : ∀ y ∈ l, 0 ≤ y) :
    (∀ y ∈ decotMask d t la l, 0 ≤ y) ∧ (decotMask d t la l).sum ≤ l.sum := by
  cases d with
  | false => exact ⟨h, le_rfl⟩
  | true =>
      cases t with
      | none => exact ⟨h, le_rfl⟩
      | some tp => exact zeroAfter_nonneg_sum l (tp + la + 1) h

lemma clampQ_denom (eps c : ℚ) (heps0 : 0 < eps) (hc1 : c ≤ 1) :
    c ≤ clampQ eps 1 c ∧ 0 < clampQ eps 1 c := by
  unfold clampQ
  rw [min_eq_right hc1]
  exact ⟨le_max_right _ _, lt_of_lt_of_le heps0 (le_max_left _ _)⟩

lemma recursiveStep_bound (p aw : List ℚ) (hp : ∀ x ∈ p, 0 ≤ x ∧ x ≤ 1)
    (haw : ∀ a ∈ aw, 0 ≤ a) (hawsum : aw.sum ≤ 1) :
    (∀ y ∈ recursiveStep p aw, 0 ≤ y) ∧ (recursiveStep p aw).sum ≤ 1 := by
  have h := recGo_nonneg_sum p aw 1 0 (by norm_num) le_rfl le_rfl hp haw
  unfold recursiveStep
  refine ⟨h.1, ?_⟩
  have := h.2
  simp only [mul_zero, one_mul, zero_add] at this
  linarith

lemma parallelStep_core_bound (eps : ℚ) (noDenom : Bool) (p aw : List ℚ) (heps0 : 0 < eps)
    (hp : ∀ x ∈ p, 0 ≤ x ∧ eps ≤ 1 - x)
    (haw : ∀ a ∈ aw, 0 ≤ a) (hawsum : aw.sum ≤ 1) :
    (∀ y ∈ parallelStep eps noDenom false none 0 p aw, 0 ≤ y) ∧
    (parallelStep eps noDenom false none 0 p aw).sum ≤ 1 := by
  rw [parallelStep_eq_parGo]
  cases noDenom with
  | false =>
      simp only [Bool.false_eq_true, if_false]
      have h := parGo_nonneg_sum eps (clampQ eps 1) heps0
        (fun c hc0 hc1 => clampQ_denom eps c heps0 hc1) p aw 1 0
        (by norm_num) le_rfl le_rfl hp haw
      refine ⟨h.1, ?_⟩
      have := h.2
      simp only [mul_zero, one_mul, zero_add] at this
      linarith
  | true =>
      simp only [if_true]
      have h := parGo_nonneg_sum eps (fun _ => (1 : ℚ)) heps0
        (fun c hc0 hc1 => ⟨hc1, by norm_num⟩) p aw 1 0
        (by norm_num) le_rfl le_rfl hp haw
      refine ⟨h.1, ?_⟩
      have := h.2
      simp only [mul_zero, one_mul, zero_add] at this
      linarith

lemma parallelStep_decot_decomp (eps : ℚ) (noDenom decot : Bool) (trigger : Option ℕ)
    (lookahead : ℕ) (p aw : List ℚ) :
    parallelStep eps noDenom decot trigger lookahead p aw =
      decotMask decot trigger lookahead (parallelStep eps noDenom false none 0 p aw) := by
  unfold parallelStep
  simp [decotMask]

lemma parallelStep_bound (eps : ℚ) (noDenom decot : Bool) (trigger : Option ℕ)
    (lookahead : ℕ) (p aw : List ℚ) (heps0 : 0 < eps)
    (hp : ∀ x ∈ p, 0 ≤ x ∧ eps ≤ 1 - x)
    (haw : ∀ a ∈ aw, 0 ≤ a) (hawsum : aw.sum ≤ 1) :
    (∀ y ∈ parallelStep eps noDenom decot trigger lookahead p aw, 0 ≤ y) ∧
    (parallelStep eps noDenom decot trigger lookahead p aw).sum ≤ 1 := by
  rw [parallelStep_decot_decomp]
  have hcore := parallelStep_core_bound eps noDenom p aw heps0 hp haw hawsum
  have hd := decotMask_nonneg_sum decot trigger lookahead _ hcore.1
  exact ⟨hd.1, le_trans hd.2 hcore.2⟩

lemma entries01_nonneg {l : List ℚ} (h : ∀ y ∈ l, y = 0 ∨ y = 1) : ∀ y ∈ l, 0 ≤ y := by
  intro y hy
  rcases h y hy with rfl | rfl <;> norm_num

lemma cumsum01 : ∀ (l : List ℚ) (c : ℚ), (c = 0 ∨ c = 1) → (∀ x ∈ l, x = 0 ∨ x = 1) →
    c + l.sum ≤ 1 → ∀ y ∈ cumsumGo c l, y = 0 ∨ y = 1 := by
  intro l
  induction l with
  | nil => intro c _ _ _ y hy; cases hy
  | cons x xs ih =>
      intro c hc h01 hsum y hy
      have hxs01 : ∀ a ∈ xs, a = 0 ∨ a = 1 := fun a ha => h01 a (by simp [ha])
      have hxsum : 0 ≤ xs.sum := List.sum_nonneg (entries01_nonneg hxs01)
      rcases h01 x (by simp) with rfl | rfl
      · simp only [List.sum_cons, zero_add] at hsum
        simp only [cumsumGo, add_zero] at hy
        rcases List.mem_cons.mp hy with rfl | hy
        · exact hc
        · exact ih c hc hxs01 hsum y hy
      · have hc0 : c = 0 := by
          rcases hc with rfl | rfl
          · rfl
          · exfalso
            simp only [List.sum_cons] at hsum
            linarith
        subst hc0
        simp only [List.sum_cons, zero_add] at hsum
        simp only [cumsumGo, zero_add] at hy
        rcases List.mem_cons.mp hy with rfl | hy
        · exact Or.inr rfl
        · exact ih 1 (Or.inr rfl) hxs01 hsum y hy

lemma entries01_zipWith_mul : ∀ (l₁ l₂ : List ℚ), (∀ x ∈ l₁, x = 0 ∨ x = 1) →
    (∀ x ∈ l₂, x = 0 ∨ x = 1) → ∀ y ∈ List.zipWith (· * ·) l₁ l₂, y = 0 ∨ y = 1 := by
  intro l₁
  induction l₁ with
  | nil => intro l₂ _ _ y hy; simp at hy
  | cons x xs ih =>
      intro l₂ h₁ h₂ y hy
      cases l₂ with
      | nil => simp at hy
      | cons z zs =>
          rcases List.mem_cons.mp hy with rfl | hy
          · rcases h₁ x (by simp) with rfl | rfl <;> rcases h₂ z (by simp) with rfl | rfl <;>
              norm_num
          · exact ih zs (fun a ha => h₁ a (by simp [ha])) (fun a ha => h₂ a (by simp [ha])) y hy

lemma oneHot_isOneHot0 : ∀ (n t : ℕ), (∀ y ∈ oneHot t n, y = 0 ∨ y = 1) ∧
    (oneHot t n).sum ≤ 1 := by
  intro n
  induction n with
  | zero =>
      intro t
      cases t <;> exact ⟨fun y hy => absurd hy (by simp [oneHot]), by norm_num [oneHot]⟩
  | succ n ih =>
      intro t
      cases t with
      | zero =>
          constructor
          · intro y hy
            simp only [oneHot, List.mem_cons] at hy
            rcases hy with rfl | hy
            · exact Or.inr rfl
            · exact Or.inl (List.eq_of_mem_replicate hy)
          · simp [oneHot, List.sum_replicate]
      | succ t =>
          constructor
          · intro y hy
            simp only [oneHot, List.mem_cons] at hy
            rcases hy with rfl | hy
            · exact Or.inl rfl
            · exact (ih t).1 y hy
          · simp only [oneHot, List.sum_cons, zero_add]
            exact (ih t).2

lemma hardStep_isOneHot0 (e aw : List ℚ) (haw01 : ∀ a ∈ aw, a = 0 ∨ a = 1)
    (hawsum : aw.sum ≤ 1) :
    (∀ y ∈ hardStep e aw, y = 0 ∨ y = 1) ∧ (hardStep e aw).sum ≤ 1 := by
  have hind : ∀ y ∈ e.map (fun x => if 0 ≤ x then (1 : ℚ) else 0), y = 0 ∨ y = 1 := by
    intro y hy
    rcases List.mem_map.mp hy with ⟨x, _, rfl⟩
    by_cases hx : (0 : ℚ) ≤ x <;> simp [hx]
  have hcs : ∀ y ∈ cumsum aw, y = 0 ∨ y = 1 := by
    intro y hy
    exact cumsum01 aw 0 (Or.inl rfl) haw01 (by simpa using hawsum) y hy
  have hpc01 : ∀ y ∈ List.zipWith (· * ·)
      (e.map (fun x => if 0 ≤ x then (1 : ℚ) else 0)) (cumsum aw), y = 0 ∨ y = 1 :=
    entries01_zipWith_mul _ _ hind hcs
  unfold hardStep
  rw [hardSelect01 _ hpc01]
  cases hfo : firstOneIdx? (List.zipWith (· * ·)
      (e.map (fun x => if 0 ≤ x then (1 : ℚ) else 0)) (cumsum aw)) with
  | some j => exact ⟨(oneHot_isOneHot0 _ j).1, (oneHot_isOneHot0 _ j).2⟩
  | none =>
      constructor
      · intro y hy
        exact Or.inl (List.eq_of_mem_replicate hy)
      · simp [List.sum_replicate]

lemma all_zero_of_nonneg_sum_zero : ∀ (l : List ℚ), (∀ y ∈ l, 0 ≤ y) → l.sum = 0 →
    ∀ y ∈ l, y = 0 := by
  intro l
  induction l with
  | nil => intro _ _ y hy; cases hy
  | cons x xs ih =>
      intro h hsum y hy
      have hx : 0 ≤ x := h x (by simp)
      have hxs : 0 ≤ xs.sum := List.sum_nonneg (fun a ha => h a (by simp [ha]))
      simp only [List.sum_cons] at hsum
      have hx0 : x = 0 := by linarith
      have hxs0 : xs.sum = 0 := by linarith
      rcases List.mem_cons.mp hy with rfl | hy
      · exact hx0
      · exact ih (fun a ha => h a (by simp [ha])) hxs0 y hy

lemma set_one_isOneHot0 : ∀ (row : List ℚ) (i : ℕ), (∀ y ∈ row, y = 0) →
    (∀ y ∈ row.set i 1, y = 0 ∨ y = 1) ∧ (row.set i 1).sum ≤ 1 := by
  intro row
  induction row with
  | nil =>
      intro i _
      exact ⟨fun y hy => absurd hy (by simp), by simp⟩
  | cons x xs ih =>
      intro i h
      have hx : x = 0 := h x (by simp)
      have hxs : ∀ y ∈ xs, y = 0 := fun y hy => h y (by simp [hy])
      cases i with
      | zero =>
          constructor
          · intro y hy
            rcases List.mem_cons.mp hy with rfl | hy
            · exact Or.inr rfl
            · exact Or.inl (hxs y hy)
          · simp only [List.set_cons_zero, List.sum_cons]
            have : xs.sum = 0 := List.sum_eq_zero hxs
            linarith
      | succ i =>
          have ihx := ih i hxs
          constructor
          · intro y hy
            rcases List.mem_cons.mp hy with rfl | hy
            · exact Or.inl hx
            · exact ihx.1 y hy
          · simp only [List.set_cons_succ, List.sum_cons]
            have := ihx.2
            linarith [hx.le, hx.ge]

lemma latencyControl_isOneHot0 (epsWait : ℕ) (br : Option ℕ) (rows : List (List ℚ))
    (h : ∀ row ∈ rows, (∀ y ∈ row, y = 0 ∨ y = 1) ∧ row.sum ≤ 1) :
    ∀ row ∈ latencyControl epsWait br rows,
      (∀ y ∈ row, y = 0 ∨ y = 1) ∧ row.sum ≤ 1 := by
  intro row hrow
  unfold latencyControl at hrow
  simp only [Bool.not_false, Bool.or_true, eq_self_iff_true, if_true, Bool.false_eq_true,
    false_and, if_false] at hrow
  by_cases hsum : (rows.map List.sum).sum = 0
  · rw [if_pos hsum] at hrow
    exact h row hrow
  · rw [if_neg hsum] at hrow
    rcases List.mem_map.mp hrow with ⟨row0, hrow0, rfl⟩
    have h0 := h row0 hrow0
    unfold headDecision
    simp only [Bool.not_false, Bool.or_true, eq_self_iff_true, if_true]
    by_cases hrsum : row0.sum = 0
    · rw [if_pos hrsum]
      unfold applyDecision
      exact set_one_isOneHot0 row0 _
        (all_zero_of_nonneg_sum_zero row0 (entries01_nonneg h0.1) hrsum)
    · rw [if_neg hrsum]
      by_cases hg : (natMin? ((rows.map nonzeroIdx).flatten)).getD 0 + epsWait ≤
          minNonzero row0
      · rw [if_pos hg]
        unfold applyDecision
        exact set_one_isOneHot0 (List.replicate row0.length 0) _
          (fun y hy => List.eq_of_mem_replicate hy)
      · rw [if_neg hg]
        exact h0

lemma zipWith_hardStep_isOneHot0 : ∀ (eRows awRows : List (List ℚ)),
    (∀ row ∈ awRows, (∀ a ∈ row, a = 0 ∨ a = 1) ∧ row.sum ≤ 1) →
    ∀ r ∈ List.zipWith hardStep eRows awRows,
      (∀ y ∈ r, y = 0 ∨ y = 1) ∧ r.sum ≤ 1 := by
  intro eRows
  induction eRows with
  | nil => intro awRows _ r hr; simp at hr
  | cons e eRows ih =>
      intro awRows hA r hr
      cases awRows with
      | nil => simp at hr
      | cons aw awRows =>
          rcases List.mem_cons.mp hr with rfl | hr
          · have haw := hA aw (by simp)
            exact hardStep_isOneHot0 e aw haw.1 haw.2
          · exact ih awRows (fun row hrow => hA row (by simp [hrow])) r hr

/-- C5 counterexample: the claim fails in two places.  In parallel mode,
with `eps = 1/4`, `p_choose = [15/16, 1/2]` (so `1 - p_choose` falls below
`eps` and the `safe_cumprod` clamp inflates the product) and
`aw_prev = [1, 0]` (nonnegative, summing to 1), the returned row sums to
`17/16 > 1`.  In hard mode, with `aw_prev = [1/2, 1/2]` (summing to 1 but
not one-hot) the returned row is `[1/2, 1/2]` — not one-hot and not
all-zero. -/
theorem alpha_row_mass_counterexample :
    (parallelStep (1/4) false false none 0 [(15 : ℚ)/16, 1/2] [1, 0]).sum = 17/16 ∧
    ¬ ((17 : ℚ)/16 ≤ 1) ∧
    hardStep [(1 : ℚ), 1] [1/2, 1/2] = [1/2, 1/2] := by
  refine ⟨?_, by norm_num, ?_⟩
  · norm_num [parallelStep, safe_cumprod, exclusive_cumprod, cumprod, cumprodGo, clampQ,
      cumsum, cumsumGo, decotMask, min_def, max_def]
  · norm_num [hardStep, cumsum, cumsumGo, exclusive_cumprod, cumprod, cumprodGo]

/-- C5 (amended): for every valid call where the `aw_prev` rows are
nonnegative and sum to at most 1 (and `p_choose` values are sigmoid
outputs in `[0,1]`): in recursive mode every returned row is nonnegative
and sums to at most 1; in parallel mode the same holds provided every
`1 - p_choose` is at least `eps` (when `1 - p_choose` drops below `eps`
the stability clamp can push a row sum above 1, as the counterexample
shows); in hard mode, when `aw_prev` rows are additionally 0/1-valued
(one-hot or all-zero, as produced by previous hard steps), every returned
row — latency control included — is one-hot or all-zero. -/
theorem alpha_rows_mass_bound (eps : ℚ) (noDenom decot : Bool) (trigger : Option ℕ)
    (lookahead : ℕ) (heps0 : 0 < eps) :
    (∀ (pRows : List (List ℚ)) (aw : List ℚ),
       (∀ row ∈ pRows, ∀ x ∈ row, 0 ≤ x ∧ x ≤ 1) →
       (∀ a ∈ aw, 0 ≤ a) → aw.sum ≤ 1 →
       ∀ arow ∈ recursiveAlpha pRows aw, (∀ y ∈ arow, 0 ≤ y) ∧ arow.sum ≤ 1) ∧
    (∀ (pRows : List (List ℚ)) (aw : List ℚ),
       (∀ row ∈ pRows, ∀ x ∈ row, 0 ≤ x ∧ eps ≤ 1 - x) →
       (∀ a ∈ aw, 0 ≤ a) → aw.sum ≤ 1 →
       ∀ arow ∈ parallelAlpha eps noDenom decot trigger lookahead pRows aw,
         (∀ y ∈ arow, 0 ≤ y) ∧ arow.sum ≤ 1) ∧
    (∀ (epsWait : ℕ) (br : Option ℕ) (eRows awRows : List (List ℚ)),
       (∀ row ∈ awRows, (∀ a ∈ row, a = 0 ∨ a = 1) ∧ row.sum ≤ 1) →
       ∀ arow ∈ hardModeAlpha epsWait br eRows awRows,
         (∀ y ∈ arow, y = 0 ∨ y = 1) ∧ arow.sum ≤ 1) := by
  refine ⟨?_, ?_, ?_⟩
  · intro pRows
    induction pRows with
    | nil => intro aw _ _ _ arow harow; cases harow
    | cons p rest ih =>
        intro aw hrows haw hawsum arow harow
        have hstep := recursiveStep_bound p aw (hrows p (by simp)) haw hawsum
        rcases List.mem_cons.mp harow with rfl | harow
        · exact hstep
        · exact ih (recursiveStep p aw) (fun r hr => hrows r (by simp [hr]))
            hstep.1 hstep.2 arow harow
  · intro pRows
    induction pRows with
    | nil => intro aw _ _ _ arow harow; cases harow
    | cons p rest ih =>
        intro aw hrows haw hawsum arow harow
        have hstep := parallelStep_bound eps noDenom decot trigger lookahead p aw heps0
          (hrows p (by simp)) haw hawsum
        rcases List.mem_cons.mp harow with rfl | harow
        · exact hstep
        · exact ih (parallelStep eps noDenom decot trigger lookahead p aw)
            (fun r hr => hrows r (by simp [hr])) hstep.1 hstep.2 arow harow
  · intro epsWait br eRows awRows hA arow harow
    unfold hardModeAlpha at harow
    by_cases hw : 0 < epsWait
    · rw [if_pos hw] at harow
      exact latencyControl_isOneHot0 epsWait br _
        (zipWith_hardStep_isOneHot0 eRows awRows hA) arow harow
    · rw [if_neg hw] at harow
      exact zipWith_hardStep_isOneHot0 eRows awRows hA arow harow

/-- Witness for C5's amended theorem, fully instantiated: the single
returned row of each mode at a concrete input sums to at most 1. -/
theorem alpha_rows_mass_bound_witness :
    (recursiveStep [(1 : ℚ)/2] [1]).sum ≤ 1 ∧
    (parallelStep (1/4) false false none 0 [(1 : ℚ)/2] [1]).sum ≤ 1 ∧
    ([(1 : ℚ)] : List ℚ).sum ≤ 1 := by
  have h := alpha_rows_mass_bound (1/4) false false none 0 (by norm_num)
  have hmem1 : ∀ row ∈ [[(1 : ℚ)/2]], ∀ x ∈ row, 0 ≤ x ∧ x ≤ 1 := by
    intro row hrow x hx
    rw [List.mem_singleton] at hrow
    subst hrow
    rw [List.mem_singleton] at hx
    subst hx
    constructor <;> norm_num
  have hmem2 : ∀ row ∈ [[(1 : ℚ)/2]], ∀ x ∈ row, 0 ≤ x ∧ (1 : ℚ)/4 ≤ 1 - x := by
    intro row hrow x hx
    rw [List.mem_singleton] at hrow
    subst hrow
    rw [List.mem_singleton] at hx
    subst hx
    constructor <;> norm_num
  have haw : ∀ a ∈ ([1] : List ℚ), 0 ≤ a := by
    intro a ha
    rw [List.mem_singleton] at ha
    subst ha
    norm_num
  have hawrows : ∀ row ∈ [[(1 : ℚ)]], (∀ a ∈ row, a = 0 ∨ a = 1) ∧ row.sum ≤ 1 := by
    intro row hrow
    rw [List.mem_singleton] at hrow
    subst hrow
    refine ⟨?_, by norm_num⟩
    intro a ha
    rw [List.mem_singleton] at ha
    subst ha
    exact Or.inr rfl
  refine ⟨?_, ?_, ?_⟩
  · exact (h.1 [[(1 : ℚ)/2]] [1] hmem1 haw (by norm_num)
      (recursiveStep [(1 : ℚ)/2] [1]) (by simp [recursiveAlpha])).2
  · exact (h.2.1 [[(1 : ℚ)/2]] [1] hmem2 haw (by norm_num)
      (parallelStep (1/4) false false none 0 [(1 : ℚ)/2] [1])
      (by simp [parallelAlpha])).2
  · refine (h.2.2 1 none [[(5 : ℚ)]] [[1]] hawrows [(1 : ℚ)] ?_).2
    have hrows : hardModeAlpha 1 none [[(5 : ℚ)]] [[1]] = [[1]] := by
      norm_num [hardModeAlpha, hardStep, cumsum, cumsumGo, exclusive_cumprod, cumprod,
        cumprodGo, latencyControl, nonzeroIdx, natMin?, natMax?, minNonzero, headDecision,
        applyDecision, List.range_succ, List.filter_cons]
    rw [hrows]
    simp

/-! ### Masking (C2 support)

`masked_fill_(mask == 0, NEG_INF)` from the energy scorers, with the
padding mask modelled as a prefix mask (valid key positions are exactly
those before `xlen`).  In float32, `sigmoid(NEG_INF + noise)` underflows
to exactly `0`, so in the soft modes the `p_choose` rows are exactly zero
at masked positions; the soft-mode statements take that as a hypothesis
on the `p_choose` input. -/

/-- Padding mask for `klen` key positions of which the first `xlen` are
valid. -/
def prefixMask (klen xlen : ℕ) : List Bool :=
  (List.range klen).map (fun j => decide (j < xlen))

/-- `e.masked_fill_(mask == 0, NEG_INF)` (mocha.py:148-149). -/
def maskedFill (mask : List Bool) (e : List ℚ) : List ℚ :=
  List.zipWith (fun m x => if m then x else NEG_INF) mask e

/-- One row of `efficient_chunkwise_attention` (mocha.py:586-633) for one
monotonic head, one chunk head and one query position.  `eExpRow` stands
for `exp(e - max e)` (exponentials are transcendental, so they enter the
model as an input); `clamp(exp(..), min=1e-5)` and the two moving sums
follow the source. -/
def ecwaRow (cs : ℤ) (sf : ℚ) (alphaRow eExpRow : List ℚ) : List ℚ :=
  let sexp := eExpRow.map (fun y => max (1/100000 : ℚ) y)
  if cs = -1 then
    List.zipWith (· * ·) sexp
      (moving_sum (List.zipWith (fun a d => a * sf / d) alphaRow (cumsum sexp)) 0
        (alphaRow.length - 1))
  else
    List.zipWith (· * ·) sexp
      (moving_sum (List.zipWith (fun a d => a * sf / d) alphaRow
        (moving_sum sexp (cs.toNat - 1) 0)) 0 (cs.toNat - 1))

/-- `efficient_chunkwise_attention` over all head pairs: the `[B, Hm, Hc]`
axes of the source are the outer two list levels, flattened as in
`beta.view(bs, -1, qlen, klen)`. -/
def efficient_chunkwise_attention (cs : ℤ) (sf : ℚ)
    (alpha eExp : List (List (List ℚ))) : List (List (List ℚ)) :=
  (alpha.map (fun ah => eExp.map (fun eh => List.zipWith (ecwaRow cs sf) ah eh))).flatten

/-! #### getD helper lemmas -/

lemma getD_zipWith_mul : ∀ (l₁ l₂ : List ℚ) (j : ℕ),
    (List.zipWith (· * ·) l₁ l₂).getD j 0 = l₁.getD j 0 * l₂.getD j 0 := by
  intro l₁
  induction l₁ with
  | nil => intro l₂ j; simp
  | cons x xs ih =>
      intro l₂ j
      cases l₂ with
      | nil => simp
      | cons z zs =>
          cases j with
          | zero => simp
          | succ j => simpa using ih zs j

lemma getD_zipWith_div_zero : ∀ (l₁ l₂ : List ℚ) (sf : ℚ) (j : ℕ), l₁.getD j 0 = 0 →
    (List.zipWith (fun a d => a * sf / d) l₁ l₂).getD j 0 = 0 := by
  intro l₁
  induction l₁ with
  | nil => intro l₂ sf j _; simp
  | cons x xs ih =>
      intro l₂ sf j h
      cases l₂ with
      | nil => simp
      | cons z zs =>
          cases j with
          | zero =>
              simp only [List.getD_cons_zero] at h ⊢
              simp [h]
          | succ j =>
              simp only [List.getD_cons_succ] at h ⊢
              exact ih zs sf j h

lemma getD_replicate_zero : ∀ (n j : ℕ), (List.replicate n (0 : ℚ)).getD j 0 = 0 := by
  intro n
  induction n with
  | zero => intro j; simp
  | succ n ih =>
      intro j
      cases j with
      | zero => simp [List.replicate_succ]
      | succ j => simp [List.replicate_succ, ih j]

lemma getD_set_ne : ∀ (l : List ℚ) (i j : ℕ) (v : ℚ), i ≠ j →
    (l.set i v).getD j 0 = l.getD j 0 := by
  intro l
  induction l with
  | nil => intro i j v _; simp
  | cons x xs ih =>
      intro i j v hij
      cases i with
      | zero =>
          cases j with
          | zero => exact absurd rfl hij
          | succ j => simp [List.set_cons_zero]
      | succ i =>
          cases j with
          | zero => simp [List.set_cons_succ]
          | succ j =>
              simp only [List.set_cons_succ, List.getD_cons_succ]
              exact ih i j v (fun h => hij (by rw [h]))

lemma getD_append_replicate_zero : ∀ (x : List ℚ) (f m : ℕ),
    (x ++ List.replicate f (0 : ℚ)).getD m 0 = x.getD m 0 := by
  intro x
  induction x with
  | nil => intro f m; simp [getD_replicate_zero]
  | cons a xs ih =>
      intro f m
      cases m with
      | zero => simp
      | succ m => simpa using ih f m

lemma getD_drop_eq : ∀ (l : List ℚ) (j m : ℕ), (l.drop j).getD m 0 = l.getD (j + m) 0 := by
  intro l
  induction l with
  | nil => intro j m; simp
  | cons x xs ih =>
      intro j m
      cases j with
      | zero => simp
      | succ j =>
          simp only [List.drop_succ_cons]
          rw [ih j m]
          simp [Nat.succ_add]

lemma sum_take_eq_sum_getD : ∀ (l : List ℚ) (w : ℕ),
    (l.take w).sum = ∑ m ∈ Finset.range w, l.getD m 0 := by
  intro l
  induction l with
  | nil => intro w; simp
  | cons x xs ih =>
      intro w
      cases w with
      | zero => simp
      | succ w =>
          simp only [List.take_succ_cons, List.sum_cons, ih w]
          rw [Finset.sum_range_succ']
          simp [List.getD_cons_succ, List.getD_cons_zero, add_comm]

lemma getD_map_range (g : ℕ → ℚ) (n j : ℕ) :
    ((List.range n).map g).getD j 0 = if j < n then g j else 0 := by
  by_cases h : j < n
  · rw [if_pos h]
    rw [List.getD_eq_getElem _ _ (by simpa using h)]
    simp
  · rw [if_neg h]
    apply List.getD_eq_default
    simpa using Nat.le_of_not_lt h

lemma recGo_getD_zero : ∀ (ps aws : List ℚ) (s q : ℚ) (j : ℕ), ps.getD j 0 = 0 →
    (recGo s q ps aws).getD j 0 = 0 := by
  intro ps
  induction ps with
  | nil => intro aws s q j _; rw [recGo_nil]; simp
  | cons p ps ih =>
      intro aws s q j h
      cases aws with
      | nil => rw [recGo_nil_aws]; simp
      | cons a aws =>
          cases j with
          | zero =>
              simp only [List.getD_cons_zero] at h
              simp only [recGo, List.getD_cons_zero, h, zero_mul]
          | succ j =>
              simp only [List.getD_cons_succ] at h
              simp only [recGo, List.getD_cons_succ]
              exact ih aws (1 - p) (s * q + a) j h

lemma zeroAfter_getD_zero : ∀ (l : List ℚ) (k j : ℕ), l.getD j 0 = 0 →
    (zeroAfter k l).getD j 0 = 0 := by
  intro l
  induction l with
  | nil => intro k j _; simp [zeroAfter]
  | cons x xs ih =>
      intro k j h
      cases j with
      | zero =>
          simp only [List.getD_cons_zero] at h
          simp only [zeroAfter, List.getD_cons_zero]
          by_cases hk : k = 0 <;> simp [hk, h]
      | succ j =>
          simp only [List.getD_cons_succ] at h
          simp only [zeroAfter, List.getD_cons_succ]
          exact ih (k - 1) j h

lemma decotMask_getD_zero (d : Bool) (t : Option ℕ) (la : ℕ) (l : List ℚ) (j : ℕ)
    (h : l.getD j 0 = 0) : (decotMask d t la l).getD j 0 = 0 := by
  cases d with
  | false => exact h
  | true =>
      cases t with
      | none => exact h
      | some tp => exact zeroAfter_getD_zero l _ j h

lemma parallelStep_getD_zero (eps : ℚ) (nd decot : Bool) (trig : Option ℕ) (la : ℕ)
    (p aw : List ℚ) (j : ℕ) (h : p.getD j 0 = 0) :
    (parallelStep eps nd decot trig la p aw).getD j 0 = 0 := by
  simp only [parallelStep]
  apply decotMask_getD_zero
  rw [getD_zipWith_mul, h, zero_mul]

lemma hardStep_getD_zero (e aw : List ℚ) (j : ℕ) (he : j < e.length → e.getD j 0 < 0) :
    (hardStep e aw).getD j 0 = 0 := by
  simp only [hardStep]
  rw [getD_zipWith_mul, getD_zipWith_mul]
  have hind : (e.map (fun x => if 0 ≤ x then (1 : ℚ) else 0)).getD j 0 = 0 := by
    by_cases hj : j < e.length
    · have hlt := he hj
      rw [List.getD_eq_getElem _ _ hj] at hlt
      rw [List.getD_eq_getElem _ _ (by simpa using hj)]
      simp only [List.getElem_map]
      rw [if_neg (not_le.mpr hlt)]
    · rw [List.getD_eq_default]
      simpa using Nat.le_of_not_lt hj
  rw [hind, zero_mul, zero_mul]

lemma maskedFill_prefix_getD_neg (klen xlen : ℕ) (e : List ℚ) (j : ℕ) (hx : xlen ≤ j)
    (hj : j < (maskedFill (prefixMask klen xlen) e).length) :
    (maskedFill (prefixMask klen xlen) e).getD j 0 < 0 := by
  have hjk : j < klen ∧ j < e.length := by
    have hlen : (maskedFill (prefixMask klen xlen) e).length =
        min klen e.length := by
      simp [maskedFill, prefixMask]
    rw [hlen] at hj
    exact ⟨lt_of_lt_of_le hj (min_le_left _ _), lt_of_lt_of_le hj (min_le_right _ _)⟩
  rw [List.getD_eq_getElem _ _ hj]
  unfold maskedFill
  simp only [List.getElem_zipWith]
  have hmask : (prefixMask klen xlen).getD j true = decide (j < xlen) := by
    unfold prefixMask
    rw [List.getD_eq_getElem _ _ (by simpa using hjk.1)]
    simp
  have hmaskj : (prefixMask klen xlen).getD j true = false := by
    rw [hmask]
    simp [Nat.not_lt.mpr hx]
  rw [List.getD_eq_getElem _ _ (by simpa [prefixMask] using hjk.1)] at hmaskj
  rw [hmaskj]
  norm_num [NEG_INF]

lemma mem_zipWith_rows : ∀ (f : List ℚ → List ℚ → List ℚ) (l₁ l₂ : List (List ℚ))
    (r : List ℚ), r ∈ List.zipWith f l₁ l₂ → ∃ a ∈ l₁, ∃ b ∈ l₂, r = f a b := by
  intro f l₁
  induction l₁ with
  | nil => intro l₂ r hr; simp at hr
  | cons a l₁ ih =>
      intro l₂ r hr
      cases l₂ with
      | nil => simp at hr
      | cons b l₂ =>
          rcases List.mem_cons.mp hr with rfl | hr
          · exact ⟨a, by simp, b, by simp, rfl⟩
          · rcases ih l₂ r hr with ⟨a1, ha1, b1, hb1, rfl⟩
            exact ⟨a1, by simp [ha1], b1, by simp [hb1], rfl⟩

lemma natMax?_cons_isSome (x : ℕ) (xs : List ℕ) : (natMax? (x :: xs)).isSome = true := by
  rw [natMax?_cons_eq]
  cases natMax? xs <;> rfl

lemma exists_row_sum_ne (rows : List (List ℚ)) (h : (rows.map List.sum).sum ≠ 0) :
    ∃ row ∈ rows, row.sum ≠ 0 := by
  by_contra hc
  push_neg at hc
  apply h
  apply List.sum_eq_zero
  intro x hx
  rcases List.mem_map.mp hx with ⟨row, hrow, rfl⟩
  exact hc row hrow

lemma latencyControl_zeroFrom (epsWait : ℕ) (br : Option ℕ) (rows : List (List ℚ))
    (xlen : ℕ) (h : ∀ row ∈ rows, ∀ j, xlen ≤ j → row.getD j 0 = 0) :
    ∀ row ∈ latencyControl epsWait br rows, ∀ j, xlen ≤ j → row.getD j 0 = 0 := by
  intro row hrow j hj
  unfold latencyControl at hrow
  simp only [Bool.not_false, Bool.or_true, eq_self_iff_true, if_true, Bool.false_eq_true,
    false_and, if_false] at hrow
  by_cases hsum : (rows.map List.sum).sum = 0
  · rw [if_pos hsum] at hrow
    exact h row hrow j hj
  · rw [if_neg hsum] at hrow
    have hnz : ∀ m ∈ (rows.map nonzeroIdx).flatten, m < xlen := by
      intro m hm
      rcases List.mem_flatten.mp hm with ⟨l, hl, hml⟩
      rcases List.mem_map.mp hl with ⟨row0, hrow0, rfl⟩
      have hmr := mem_nonzeroIdx.mp hml
      by_contra hge
      exact hmr.2 (h row0 hrow0 m (Nat.le_of_not_lt hge))
    rcases List.mem_map.mp hrow with ⟨row0, hrow0, rfl⟩
    unfold headDecision
    simp only [Bool.not_false, Bool.or_true, eq_self_iff_true, if_true]
    by_cases hrsum : row0.sum = 0
    · rw [if_pos hrsum]
      unfold applyDecision
      have hRlt : (natMax? ((rows.map nonzeroIdx).flatten)).getD 0 < xlen := by
        rcases exists_row_sum_ne rows hsum with ⟨rowz, hrowz, hrz⟩
        have hnzne := nonzeroIdx_ne_nil_of_sum_ne rowz hrz
        cases hflat : (rows.map nonzeroIdx).flatten with
        | nil =>
            exfalso
            apply hnzne
            cases hcase : nonzeroIdx rowz with
            | nil => rfl
            | cons a l =>
                have hmem : a ∈ (rows.map nonzeroIdx).flatten :=
                  List.mem_flatten.mpr ⟨nonzeroIdx rowz, List.mem_map_of_mem _ hrowz,
                    by rw [hcase]; simp⟩
                rw [hflat] at hmem
                cases hmem
        | cons a l =>
            have hsome := natMax?_cons_isSome a l
            cases hM : natMax? (a :: l) with
            | none => rw [hM] at hsome; cases hsome
            | some M =>
                simp only [Option.getD_some]
                apply hnz
                rw [hflat]
                exact natMax?_mem _ M hM
      have hwidx : min ((natMax? ((rows.map nonzeroIdx).flatten)).getD 0)
          ((natMin? ((rows.map nonzeroIdx).flatten)).getD 0 + epsWait) < xlen :=
        lt_of_le_of_lt (Nat.min_le_left _ _) hRlt
      rw [getD_set_ne _ _ _ _ (Nat.ne_of_lt (lt_of_lt_of_le hwidx hj))]
      exact h row0 hrow0 j hj
    · rw [if_neg hrsum]
      by_cases hg : (natMin? ((rows.map nonzeroIdx).flatten)).getD 0 + epsWait ≤
          minNonzero row0
      · rw [if_pos hg]
        unfold applyDecision
        have hmlt : minNonzero row0 < xlen := by
          have hnzne := nonzeroIdx_ne_nil_of_sum_ne row0 hrsum
          cases hcase : nonzeroIdx row0 with
          | nil => exact absurd hcase hnzne
          | cons a l =>
              have hsome := natMin?_cons_isSome a l
              cases hm : natMin? (a :: l) with
              | none => rw [hm] at hsome; cases hsome
              | some m =>
                  unfold minNonzero
                  rw [hcase, hm]
                  simp only [Option.getD_some]
                  have hmem : m ∈ nonzeroIdx row0 := by
                    rw [hcase]; exact natMin?_mem _ m hm
                  have hmr := mem_nonzeroIdx.mp hmem
                  by_contra hge
                  exact hmr.2 (h row0 hrow0 m (Nat.le_of_not_lt hge))
        have hwlt : (natMin? ((rows.map nonzeroIdx).flatten)).getD 0 + epsWait < xlen :=
          lt_of_le_of_lt hg hmlt
        rw [getD_set_ne _ _ _ _ (Nat.ne_of_lt (lt_of_lt_of_le hwlt hj))]
        exact getD_replicate_zero _ j
      · rw [if_neg hg]
        exact h row0 hrow0 j hj

lemma moving_sum_zeroFrom (x : List ℚ) (f xlen : ℕ)
    (h : ∀ j, xlen ≤ j → x.getD j 0 = 0) :
    ∀ j, xlen ≤ j → (moving_sum x 0 f).getD j 0 = 0 := by
  intro j hj
  simp only [moving_sum]
  rw [getD_map_range]
  by_cases hjn : j < x.length
  · rw [if_pos hjn]
    rw [sum_take_eq_sum_getD]
    apply Finset.sum_eq_zero
    intro m _
    rw [getD_drop_eq]
    have hpad : (List.replicate 0 (0 : ℚ) ++ x ++ List.replicate f 0) =
        x ++ List.replicate f 0 := by simp
    rw [hpad, getD_append_replicate_zero]
    exact h (j + m) (le_trans hj (Nat.le_add_right j m))
  · rw [if_neg hjn]

lemma ecwaRow_zeroFrom (cs : ℤ) (sf : ℚ) (alphaRow eExpRow : List ℚ) (xlen : ℕ)
    (h : ∀ j, xlen ≤ j → alphaRow.getD j 0 = 0) :
    ∀ j, xlen ≤ j → (ecwaRow cs sf alphaRow eExpRow).getD j 0 = 0 := by
  intro j hj
  simp only [ecwaRow]
  by_cases hcs : cs = -1
  · rw [if_pos hcs, getD_zipWith_mul]
    have hz := moving_sum_zeroFrom
      (List.zipWith (fun a d => a * sf / d) alphaRow
        (cumsum (eExpRow.map (fun y => max (1/100000 : ℚ) y))))
      (alphaRow.length - 1) xlen
      (fun j2 hj2 => getD_zipWith_div_zero _ _ sf j2 (h j2 hj2)) j hj
    rw [hz, mul_zero]
  · rw [if_neg hcs, getD_zipWith_mul]
    have hz := moving_sum_zeroFrom
      (List.zipWith (fun a d => a * sf / d) alphaRow
        (moving_sum (eExpRow.map (fun y => max (1/100000 : ℚ) y)) (cs.toNat - 1) 0))
      (cs.toNat - 1) xlen
      (fun j2 hj2 => getD_zipWith_div_zero _ _ sf j2 (h j2 hj2)) j hj
    rw [hz, mul_zero]

/-- C2: with a padding mask whose valid key positions are exactly those
before `xlen`, every masked position has exactly zero weight in the
returned alpha in all three modes, and in the returned beta.
For the soft modes the hypothesis `p_choose = 0` at masked positions is
the float32 fact that `sigmoid(NEG_INF + noise)` underflows to exactly 0
after the energies are `masked_fill`ed with the sentinel; in hard mode the
threshold comparison is on the sentinel energies themselves, so the
masking enters through `maskedFill` directly, and the latency-control
writes stay below `xlen` because they are bounded by nonzero (hence
unmasked) positions.  Beta vanishes at masked positions for every alpha
that does, for both the finite-chunk and infinite-lookback paths. -/
theorem masked_positions_zero_weight (xlen : ℕ) :
    (∀ (pRows : List (List ℚ)) (aw : List ℚ),
       (∀ row ∈ pRows, ∀ j, xlen ≤ j → row.getD j 0 = 0) →
       ∀ arow ∈ recursiveAlpha pRows aw, ∀ j, xlen ≤ j → arow.getD j 0 = 0) ∧
    (∀ (eps : ℚ) (noDenom decot : Bool) (trigger : Option ℕ) (lookahead : ℕ)
       (pRows : List (List ℚ)) (aw : List ℚ),
       (∀ row ∈ pRows, ∀ j, xlen ≤ j → row.getD j 0 = 0) →
       ∀ arow ∈ parallelAlpha eps noDenom decot trigger lookahead pRows aw,
         ∀ j, xlen ≤ j → arow.getD j 0 = 0) ∧
    (∀ (klen epsWait : ℕ) (br : Option ℕ) (eRows awRows : List (List ℚ)),
       ∀ arow ∈ hardModeAlpha epsWait br
           (eRows.map (maskedFill (prefixMask klen xlen))) awRows,
         ∀ j, xlen ≤ j → arow.getD j 0 = 0) ∧
    (∀ (cs : ℤ) (sf : ℚ) (alpha eExp : List (List (List ℚ))),
       (∀ ah ∈ alpha, ∀ arow ∈ ah, ∀ j, xlen ≤ j → arow.getD j 0 = 0) →
       ∀ bh ∈ efficient_chunkwise_attention cs sf alpha eExp, ∀ brow ∈ bh,
         ∀ j, xlen ≤ j → brow.getD j 0 = 0) := by
  have hhard : ∀ (klen : ℕ) (eRows awRows : List (List ℚ)),
      ∀ r ∈ List.zipWith hardStep (eRows.map (maskedFill (prefixMask klen xlen))) awRows,
        ∀ j, xlen ≤ j → r.getD j 0 = 0 := by
    intro klen eRows awRows r hr j hj
    rcases mem_zipWith_rows hardStep _ _ r hr with ⟨eM, heM, aw, _, rfl⟩
    rcases List.mem_map.mp heM with ⟨e, _, rfl⟩
    exact hardStep_getD_zero _ aw j
      (fun hjl => maskedFill_prefix_getD_neg klen xlen e j hj hjl)
  refine ⟨?_, ?_, ?_, ?_⟩
  · intro pRows
    induction pRows with
    | nil => intro aw _ arow harow; cases harow
    | cons p rest ih =>
        intro aw hrows arow harow
        rcases List.mem_cons.mp harow with rfl | harow
        · intro j hj
          exact recGo_getD_zero p aw 1 0 j (hrows p (by simp) j hj)
        · exact ih (recursiveStep p aw) (fun r hr => hrows r (by simp [hr])) arow harow
  · intro eps noDenom decot trigger lookahead pRows
    induction pRows with
    | nil => intro aw _ arow harow; cases harow
    | cons p rest ih =>
        intro aw hrows arow harow
        rcases List.mem_cons.mp harow with rfl | harow
        · intro j hj
          exact parallelStep_getD_zero eps noDenom decot trigger lookahead p aw j
            (hrows p (by simp) j hj)
        · exact ih (parallelStep eps noDenom decot trigger lookahead p aw)
            (fun r hr => hrows r (by simp [hr])) arow harow
  · intro klen epsWait br eRows awRows arow harow
    unfold hardModeAlpha at harow
    by_cases hw : 0 < epsWait
    · rw [if_pos hw] at harow
      exact latencyControl_zeroFrom epsWait br _ xlen (hhard klen eRows awRows) arow harow
    · rw [if_neg hw] at harow
      exact hhard klen eRows awRows arow harow
  · intro cs sf alpha eExp halpha bh hbh brow hbrow
    unfold efficient_chunkwise_attention at hbh
    rcases List.mem_flatten.mp hbh with ⟨bl, hbl, hbhbl⟩
    rcases List.mem_map.mp hbl with ⟨ah, hah, rfl⟩
    rcases List.mem_map.mp hbhbl with ⟨eh, _, rfl⟩
    rcases mem_zipWith_rows (ecwaRow cs sf) ah eh brow hbrow with ⟨arow, harow, erow, _, rfl⟩
    exact ecwaRow_zeroFrom cs sf arow erow xlen (halpha ah hah arow harow)

/-- Witness for C2, fully instantiated with `xlen = 1`, `klen = 2` and the
masked key position `j = 1`: the weight there is exactly zero in each
mode's returned row and in the beta row. -/
theorem masked_positions_zero_weight_witness :
    (recursiveStep [(1 : ℚ)/2, 0] [1, 0]).getD 1 0 = 0 ∧
    (parallelStep (1/4) false false none 0 [(1 : ℚ)/2, 0] [1, 0]).getD 1 0 = 0 ∧
    ([(1 : ℚ), 0] : List ℚ).getD 1 0 = 0 ∧
    (ecwaRow 2 1 [(1 : ℚ), 0] [1, 1]).getD 1 0 = 0 := by
  have h := masked_positions_zero_weight 1
  have hmask : ∀ row ∈ [[(1 : ℚ)/2, 0]], ∀ j, 1 ≤ j → row.getD j 0 = 0 := by
    intro row hrow j hj
    rw [List.mem_singleton] at hrow
    subst hrow
    cases j with
    | zero => omega
    | succ j =>
        cases j with
        | zero => rfl
        | succ j => simp
  refine ⟨?_, ?_, ?_, ?_⟩
  · exact h.1 [[(1 : ℚ)/2, 0]] [1, 0] hmask
      (recursiveStep [(1 : ℚ)/2, 0] [1, 0]) (by simp [recursiveAlpha]) 1 le_rfl
  · exact h.2.1 (1/4) false false none 0 [[(1 : ℚ)/2, 0]] [1, 0] hmask
      (parallelStep (1/4) false false none 0 [(1 : ℚ)/2, 0] [1, 0])
      (by simp [parallelAlpha]) 1 le_rfl
  · refine h.2.2.1 2 1 none [[(5 : ℚ), 5]] [[1, 0]] [(1 : ℚ), 0] ?_ 1 le_rfl
    have hrows : hardModeAlpha 1 none ([[(5 : ℚ), 5]].map (maskedFill (prefixMask 2 1)))
        [[1, 0]] = [[1, 0]] := by
      norm_num [hardModeAlpha, hardStep, maskedFill, prefixMask, NEG_INF, cumsum,
        cumsumGo, exclusive_cumprod, cumprod, cumprodGo, latencyControl, nonzeroIdx,
        natMin?, natMax?, minNonzero, headDecision, applyDecision, List.range_succ,
        List.filter_cons]
    rw [hrows]
    simp
  · refine h.2.2.2 2 1 [[[(1 : ℚ), 0]]] [[[1, 1]]] ?_
      [ecwaRow 2 1 [(1 : ℚ), 0] [1, 1]] ?_ (ecwaRow 2 1 [(1 : ℚ), 0] [1, 1])
      (by simp) 1 le_rfl
    · intro ah hah arow harow j hj
      rw [List.mem_singleton] at hah
      subst hah
      rw [List.mem_singleton] at harow
      subst harow
      cases j with
      | zero => omega
      | succ j =>
          cases j with
          | zero => rfl
          | succ j => simp
    · simp [efficient_chunkwise_attention]

/-! ### MonotonicEnergy scorer with explicit cache state (mocha.py:106-152)

The learned sublayers are fields of the parameter record: `projKey` stands
for the optional causal convolution + ReLU followed by `w_key` and the
reshape/transpose to `[H, klen, d_k]`; `projQuery` for `w_query` with its
reshape; `score` for the per-head scoring (additive `v · relu(k + q)` or
scaled-dot `k·q / sqrt(adim)`).  The hidden `self.key`/`self.mask` cache
becomes an explicit state record threaded through the call. -/

structure MonoEnergyParams where
  nHeads : ℕ
  projKey : List (List ℚ) → List (List (List ℚ))
  projQuery : List (List ℚ) → List (List (List ℚ))
  score : List ℚ → List ℚ → ℚ
  r : ℚ

structure MonoEnergyState where
  key : Option (List (List (List ℚ)))
  mask : Option (List (List (List Bool)))

/-- `MonotonicEnergy.forward`: when no key is cached or `cache` is false,
project the key and expand the mask across heads (`unsqueeze(1).repeat`),
storing both; otherwise reuse the cached pair and IGNORE the `mask`
argument.  Then score query against the (cached) key, add the offset `r`,
and overwrite positions masked by the CACHED mask with `NEG_INF`. -/
def monoEnergyForward (P : MonoEnergyParams) (st : MonoEnergyState)
    (key query : List (List ℚ)) (mask : Option (List (List Bool))) (cache : Bool) :
    List (List (List ℚ)) × MonoEnergyState :=
  let st1 := if st.key.isNone || !cache then
      { key := some (P.projKey key),
        mask := mask.map (fun m => List.replicate P.nHeads m) }
    else st
  let k := st1.key.getD []
  let q := P.projQuery query
  let e0 := (List.range P.nHeads).map (fun h =>
    (q.getD h []).map (fun qi => (k.getD h []).map (fun kj => P.score qi kj + P.r)))
  let e1 := match st1.mask with
    | some mH => List.zipWith (fun eh mh =>
        List.zipWith (fun er mr => maskedFill mr er) eh mh) e0 mH
    | none => e0
  (e1, st1)

/-- C9: when `cache = true` and a key is already cached, the returned
energy does not depend on the `mask` argument — the cached expanded mask
is applied instead of the one passed in. -/
theorem cached_mask_shadows_argument (P : MonoEnergyParams) (st : MonoEnergyState)
    (key query : List (List ℚ)) (m1 m2 : Option (List (List Bool)))
    (k0 : List (List (List ℚ))) (hst : st.key = some k0) :
    (monoEnergyForward P st key query m1 true).1 =
      (monoEnergyForward P st key query m2 true).1 := by
  unfold monoEnergyForward
  simp [hst]

/-- Witness for C9 at a concrete instance. -/
theorem cached_mask_shadows_argument_witness :
    (monoEnergyForward ⟨1, fun k => [k], fun q => [q], fun _ _ => 0, 0⟩
        ⟨some [[[1]]], none⟩ [[1]] [[1]] (some [[true]]) true).1 =
      (monoEnergyForward ⟨1, fun k => [k], fun q => [q], fun _ _ => 0, 0⟩
        ⟨some [[[1]]], none⟩ [[1]] [[1]] none true).1 :=
  cached_mask_shadows_argument _ _ _ _ _ _ [[[1]]] rfl

/-! ### MoChA beta construction and context aggregation (mocha.py:314-316, 485-508) -/

def scaleVec (a : ℚ) (v : List ℚ) : List ℚ := v.map (a * ·)

def vecAdd (u v : List ℚ) : List ℚ := List.zipWith (· + ·) u v

/-- Batched weighted sum `bmm(w, vals)` for one output row: the sum over
key positions of `w_j · vals_j`. -/
def weightedSum (w : List ℚ) (vals : List (List ℚ)) : List ℚ :=
  (List.zipWith scaleVec w vals).foldr vecAdd (List.replicate ((vals.headD []).length) 0)

structure MoChACfg where
  chunkSize : ℤ
  nHeadsMono : ℕ
  nHeadsChunk : ℕ
  sharpening : ℚ
  dk : ℕ
  wValue : List ℚ → List ℚ
  wOut : List ℚ → List ℚ

/-- `self.chunk_energy = ChunkEnergy(...) if chunk_size > 1 or self.milk
else None` (mocha.py:314-316), where `milk` means `chunk_size == -1`. -/
def chunkEnergyExists (c : MoChACfg) : Bool :=
  decide (1 < c.chunkSize) || decide (c.chunkSize = -1)

/-- Tail of `MoChA.forward` (mocha.py:485-508): construct beta only when
`chunk_size > 1` or infinite lookback, then aggregate the context vector —
with more than one head, project values, weight each head slice by alpha
(`chunk_size == 1`) or beta (otherwise), concatenate and output-project;
with a single head, weight the raw values directly. -/
def mochaOutput (c : MoChACfg) (alpha eChunkExp : List (List (List ℚ)))
    (value : List (List ℚ)) : List (List ℚ) × Option (List (List (List ℚ))) :=
  let beta : Option (List (List (List ℚ))) :=
    if 1 < c.chunkSize ∨ c.chunkSize = -1 then
      some (efficient_chunkwise_attention c.chunkSize c.sharpening alpha eChunkExp)
    else none
  let H := c.nHeadsMono * c.nHeadsChunk
  let cv :=
    if 1 < H then
      let w := if c.chunkSize = 1 then alpha else beta.getD []
      (List.range ((w.headD []).length)).map (fun i =>
        c.wOut (((List.range H).map (fun h =>
          weightedSum ((w.getD h []).getD i [])
            (value.map (fun v => ((c.wValue v).drop (h * c.dk)).take c.dk)))).flatten))
    else
      if c.chunkSize = 1 then (alpha.headD []).map (fun arow => weightedSum arow value)
      else ((beta.getD []).headD []).map (fun brow => weightedSum brow value)
  (cv, beta)

/-- The pure alpha-weighted context aggregation (no beta anywhere): with a
single head, each context row is the alpha-weighted sum of the raw values;
with several heads, the alpha-weighted sums of the per-head projected
value slices, concatenated and output-projected. -/
def alphaContext (c : MoChACfg) (alpha : List (List (List ℚ)))
    (value : List (List ℚ)) : List (List ℚ) :=
  if 1 < c.nHeadsMono * c.nHeadsChunk then
    (List.range ((alpha.headD []).length)).map (fun i =>
      c.wOut (((List.range (c.nHeadsMono * c.nHeadsChunk)).map (fun h =>
        weightedSum ((alpha.getD h []).getD i [])
          (value.map (fun v => ((c.wValue v).drop (h * c.dk)).take c.dk)))).flatten))
  else (alpha.headD []).map (fun arow => weightedSum arow value)

/-- C8: with `chunk_size = 1` (infinite lookback excluded by definition,
since `milk` requires `chunk_size = -1`), no `ChunkEnergy` scorer is
constructed, `forward` never constructs beta (returns `none`), and the
context vector is the alpha-weighted sum of the values (per-head projected
value slices when more than one head is configured, cf. spec section 4.5). -/
theorem chunk_size_one_no_beta (c : MoChACfg) (hcs : c.chunkSize = 1)
    (alpha eExp : List (List (List ℚ))) (value : List (List ℚ)) :
    chunkEnergyExists c = false ∧
    (mochaOutput c alpha eExp value).2 = none ∧
    (mochaOutput c alpha eExp value).1 = alphaContext c alpha value := by
  refine ⟨?_, ?_, ?_⟩
  · norm_num [chunkEnergyExists, hcs]
  · norm_num [mochaOutput, hcs]
  · norm_num [mochaOutput, alphaContext, hcs]

/-- Witness for C8 at a concrete configuration. -/
theorem chunk_size_one_no_beta_witness :
    chunkEnergyExists ⟨1, 1, 1, 1, 1, id, id⟩ = false ∧
    (mochaOutput ⟨1, 1, 1, 1, 1, id, id⟩ [[[1]]] [[[1]]] [[1]]).2 = none ∧
    (mochaOutput ⟨1, 1, 1, 1, 1, id, id⟩ [[[1]]] [[[1]]] [[1]]).1 =
      alphaContext ⟨1, 1, 1, 1, 1, id, id⟩ [[[1]]] [[1]] :=
  chunk_size_one_no_beta ⟨1, 1, 1, 1, 1, id, id⟩ rfl [[[1]]] [[[1]]] [[1]]
